import Mathlib

/-!
Verification development for the site-audit-tool repository.

Scope of the embedding:
* Strings are modeled as lists of characters (`Str := List Char`).
* `urlsplit` / `urlparse` / `urlunsplit` / `urlunparse` model the current
  CPython stdlib `urllib.parse` (3.11.4 and later, through 3.13) as called by
  `src/engine.py` (`AuditEngine._normalize_url`, `AuditEngine._is_valid_url`);
  this includes the 3.11 scheme guard (`url[0].isascii() and url[0].isalpha()`)
  and the 3.11.4 `urlunsplit` reassembly condition
  (`netloc or (scheme and scheme in uses_netloc and url[:2] != '//')`).
  The model covers the code-point level behaviour of these functions; the
  NFKC netloc check of `_checknetloc` and the bracketed-host validation of
  `_check_bracketed_host` (which can only reject certain non-ASCII netlocs
  resp. certain `[...]` hosts) are elided, and character case mapping is the
  basic-latin mapping (`Char.toLower`), matching Python on ASCII input.
  Python's `ValueError` raised on mismatched IPv6 brackets is modeled by the
  error type `UrlParseError` (the spec's name for it).
* The crawl loop `AuditEngine.run` (src/engine.py) is modeled as a step
  function `step` plus its iteration `runFrom`.  The environment (network
  fetches, HTML link extraction via BeautifulSoup, and the regex exclusion
  patterns) is modeled by oracle functions carried in `Cfg`.
* The colour classifier of `src/core/design_auditor.py`
  (`hex_to_rgb`, `rgb_to_lab`, `delta_e`, `find_variable_candidate`) and of
  `src/plugins/audit_design.py` (`DesignAuditor._find_nearest_color`,
  `DesignAuditor._evaluate_color_value`) is embedded with real-number
  arithmetic in place of Python floats; Python's `round(x, 2)` is modeled
  as exact round-half-to-even on reals.
-/

namespace SiteAudit

abbrev Str := List Char

/-- Python `str.lower()` on the basic-latin range (`src` URLs and CSS values
are ASCII; `Char.toLower` is the identity off `A`-`Z`). -/
def lowerStr (s : Str) : Str := s.map Char.toLower

/-- Python `str.upper()` on the basic-latin range. -/
def upperStr (s : Str) : Str := s.map Char.toUpper

/-- The ASCII whitespace characters removed by Python `str.strip()`. -/
def isPySpace (c : Char) : Bool :=
  c = ' ' ∨ c = '\t' ∨ c = '\n' ∨ c = '\r' ∨ c = '\x0b' ∨ c = '\x0c'

/-- Python `str.strip()` (ASCII whitespace). -/
def stripStr (s : Str) : Str :=
  ((s.dropWhile isPySpace).reverse.dropWhile isPySpace).reverse

/-- Split a list at the first occurrence of `c` (the occurrence is dropped),
returning `none` when `c` does not occur.  This is the building block used to
model Python's `find` / slicing / `split(sep, 1)` idioms. -/
def splitFirst (c : Char) : Str → Option (Str × Str)
  | [] => none
  | x :: xs =>
    if x = c then some ([], xs)
    else (splitFirst c xs).map fun p => (x :: p.1, p.2)

/-- Split a list at the last occurrence of `c` (models `str.rfind`). -/
def splitLast (c : Char) (l : Str) : Option (Str × Str) :=
  (splitFirst c l.reverse).map fun p => (p.2.reverse, p.1.reverse)

theorem splitFirst_some_length {c : Char} {l a b : Str}
    (h : splitFirst c l = some (a, b)) : b.length < l.length := by
  induction l generalizing a b with
  | nil => simp [splitFirst] at h
  | cons x xs ih =>
    rw [splitFirst] at h
    by_cases hx : x = c
    · rw [if_pos hx] at h
      simp only [Option.some.injEq, Prod.mk.injEq] at h
      rw [← h.2]
      exact Nat.lt_succ_self _
    · rw [if_neg hx] at h
      match m : splitFirst c xs with
      | none => rw [m] at h; simp at h
      | some p =>
        rw [m] at h
        simp only [Option.map, Option.some.injEq, Prod.mk.injEq] at h
        have := ih (a := p.1) (b := p.2) (by rw [m])
        rw [← h.2]
        simp
        omega

/-- Python `str.split(c)` (all occurrences, empty pieces kept). -/
def splitChar (c : Char) (l : Str) : List Str :=
  match h : splitFirst c l with
  | none => [l]
  | some p => p.1 :: splitChar c p.2
termination_by l.length
decreasing_by exact splitFirst_some_length h

/-- Python `c.join(parts)`. -/
def joinChar (c : Char) : List Str → Str
  | [] => []
  | [x] => x
  | x :: xs => x ++ c :: joinChar c xs

/-! ### Model of CPython `urllib.parse`, 3.11.4+ (as used by `src/engine.py`) -/

/-- Membership in `urllib.parse.scheme_chars` (ASCII letters, digits, `+-.`). -/
def schemeChar (c : Char) : Bool :=
  c.isAlpha ∨ c.isDigit ∨ c = '+' ∨ c = '-' ∨ c = '.'

/-- The WHATWG C0-control-or-space class stripped from the left of a URL. -/
def isC0OrSpace (c : Char) : Bool := c.toNat ≤ 0x20

/-- The unsafe bytes (`\t`, `\r`, `\n`) removed everywhere in a URL. -/
def isUnsafeUrlChar (c : Char) : Bool := c = '\t' ∨ c = '\r' ∨ c = '\n'

/-- Characters ending the netloc in `urllib.parse._splitnetloc`. -/
def netlocDelim (c : Char) : Bool := c = '/' ∨ c = '?' ∨ c = '#'

/-- The spec's name (taxonomy, section 7) for the `ValueError` that
`urllib.parse.urlsplit` raises on mismatched IPv6 brackets and that
`AuditEngine._normalize_url` propagates. -/
inductive UrlParseError where
  | invalidIPv6
deriving DecidableEq

/-- Result record of `urllib.parse.urlsplit`. -/
structure SplitResult where
  scheme : Str
  netloc : Str
  path : Str
  query : Str
  fragment : Str
deriving DecidableEq

/-- Result record of `urllib.parse.urlparse` (with `params`). -/
structure ParseResult where
  scheme : Str
  netloc : Str
  path : Str
  params : Str
  query : Str
  fragment : Str
deriving DecidableEq

/-- The scheme-splitting step of `urlsplit`: the text before the first `:` is
taken as the scheme when it is nonempty, starts with an ASCII letter, and is
made only of `scheme_chars` (CPython 3.11 `i = url.find(':')`,
`if i > 0 and url[0].isascii() and url[0].isalpha(): for c in url[:i] ...
else: scheme, url = url[:i].lower(), url[i+1:]`; Lean's `Char.isAlpha` is
exactly the ASCII-letter test `isascii() and isalpha()`). -/
def schemeSplit (url : Str) : Str × Str :=
  match splitFirst ':' url with
  | none => ([], url)
  | some p =>
    if p.1 ≠ [] ∧ p.1.headI.isAlpha ∧ p.1.all schemeChar then (lowerStr p.1, p.2)
    else ([], url)

/-- The mismatched-bracket test guarding the `Invalid IPv6 URL` ValueError. -/
def badBrackets (netloc : Str) : Bool :=
  ('[' ∈ netloc ∧ ']' ∉ netloc) ∨ (']' ∈ netloc ∧ '[' ∉ netloc)

/-- Model of `urllib.parse.urlsplit` (CPython 3.11): strip leading
C0-control/space, drop `\t\r\n`, split scheme, netloc (after `//`),
fragment (first `#`), query (first `?`). -/
def urlsplit (url0 : Str) : Except UrlParseError SplitResult :=
  let url1 := (url0.dropWhile isC0OrSpace).filter fun c => ¬ isUnsafeUrlChar c
  let sp := schemeSplit url1
  let scheme := sp.1
  let url2 := sp.2
  let nl :=
    if url2.take 2 = ['/', '/'] then
      ((url2.drop 2).takeWhile fun c => ¬ netlocDelim c,
       (url2.drop 2).dropWhile fun c => ¬ netlocDelim c)
    else ([], url2)
  if badBrackets nl.1 then .error .invalidIPv6
  else
    let fr := match splitFirst '#' nl.2 with
      | some p => p
      | none => (nl.2, [])
    let pq := match splitFirst '?' fr.1 with
      | some p => p
      | none => (fr.1, [])
    .ok ⟨scheme, nl.1, pq.1, pq.2, fr.2⟩

/-- The schemes for which `urlparse` splits `;params` (`urllib.parse.uses_params`,
CPython 3.11). -/
def usesParams : List Str :=
  [[], "ftp".toList, "hdl".toList, "prospero".toList, "http".toList,
   "imap".toList, "https".toList, "shttp".toList, "rtsp".toList,
   "rtsps".toList, "rtspu".toList, "sip".toList, "sips".toList,
   "mms".toList, "sftp".toList, "tel".toList]

/-- Model of `urllib.parse._splitparams`: split at the first `;` that follows
the last `/` (or the first `;` at all when there is no `/`); no `;` after the
last `/` means empty params. -/
def splitparams (l : Str) : Str × Str :=
  match splitLast '/' l with
  | some ab =>
    match splitFirst ';' ab.2 with
    | some pq => (ab.1 ++ '/' :: pq.1, pq.2)
    | none => (l, [])
  | none =>
    match splitFirst ';' l with
    | some pq => pq
    | none => (l, [])

/-- Model of `urllib.parse.urlparse` (CPython 3.11). -/
def urlparse (url : Str) : Except UrlParseError ParseResult :=
  (urlsplit url).map fun s =>
    if s.scheme ∈ usesParams ∧ ';' ∈ s.path then
      let pp := splitparams s.path
      ⟨s.scheme, s.netloc, pp.1, pp.2, s.query, s.fragment⟩
    else ⟨s.scheme, s.netloc, s.path, [], s.query, s.fragment⟩

/-- The schemes treated as carrying a network location
(`urllib.parse.uses_netloc`, CPython 3.11). -/
def usesNetloc : List Str :=
  [[], "ftp".toList, "http".toList, "gopher".toList, "nntp".toList,
   "telnet".toList, "imap".toList, "wais".toList, "file".toList,
   "mms".toList, "https".toList, "shttp".toList, "snews".toList,
   "prospero".toList, "rtsp".toList, "rtsps".toList, "rtspu".toList,
   "rsync".toList, "svn".toList, "svn+ssh".toList, "sftp".toList,
   "nfs".toList, "git".toList, "git+ssh".toList, "ws".toList, "wss".toList]

/-- Model of `urllib.parse.urlunsplit` (CPython 3.11.4 and later): the `//`
marker is re-attached when there is a netloc, or when the scheme uses a
netloc and the path does not itself start with `//`
(`if netloc or (scheme and scheme in uses_netloc and url[:2] != '//'):`). -/
def urlunsplit (scheme netloc path query fragment : Str) : Str :=
  let u1 :=
    if netloc ≠ [] ∨ (scheme ≠ [] ∧ scheme ∈ usesNetloc ∧ path.take 2 ≠ ['/', '/']) then
      '/' :: '/' :: netloc ++
        (if path ≠ [] ∧ path.take 1 ≠ ['/'] then '/' :: path else path)
    else path
  let u2 := if scheme ≠ [] then scheme ++ ':' :: u1 else u1
  let u3 := if query ≠ [] then u2 ++ '?' :: query else u2
  if fragment ≠ [] then u3 ++ '#' :: fragment else u3

/-- Model of `urllib.parse.urlunparse` (re-attach `;params` when nonempty). -/
def urlunparse (p : ParseResult) : Str :=
  urlunsplit p.scheme p.netloc
    (if p.params ≠ [] then p.path ++ ';' :: p.params else p.path)
    p.query p.fragment

/-! ### Model of `AuditEngine._normalize_url` (src/engine.py lines 90-146) -/

/-- The tracking query parameters removed by `_normalize_url`. -/
def trackingParams : List Str :=
  ["utm_source".toList, "utm_medium".toList, "utm_campaign".toList,
   "utm_content".toList, "utm_term".toList, "fbclid".toList, "gclid".toList]

/-- Does a `key=value` query component start with a tracking key
(`p.startswith(tp + "=")`)? -/
def isTracking (param : Str) : Bool :=
  trackingParams.any fun tp => (tp ++ ['=']).isPrefixOf param

/-- The query cleanup of `_normalize_url`: when nonempty, split on `&`, drop
tracking parameters, rejoin with `&`. -/
def filterQuery (q : Str) : Str :=
  if q = [] then []
  else joinChar '&' ((splitChar '&' q).filter fun p => ¬ isTracking p)

/-- Python `path.rstrip("/")`: remove every trailing slash. -/
def rstripSlash (p : Str) : Str :=
  (p.reverse.dropWhile fun c => c = '/').reverse

/-- The path cleanup of `_normalize_url`: strip trailing slashes unless the
path is exactly the root, then turn an empty path into the root. -/
def fixPath (p : Str) : Str :=
  let p1 := if p ≠ ['/'] ∧ p.getLast? = some '/' then rstripSlash p else p
  if p1 = [] then ['/'] else p1

/-- The component-level transformation applied by `_normalize_url`:
lowercase the netloc, drop the fragment, clean the path, filter the query;
scheme and params pass through. -/
def normParts (p : ParseResult) : ParseResult :=
  ⟨p.scheme, lowerStr p.netloc, fixPath p.path, p.params, filterQuery p.query, []⟩

/-- Model of `AuditEngine._normalize_url`: parse, transform components,
reassemble.  The function applies no exception handling, so a parse error
propagates to the caller. -/
def normalize_url (url : Str) : Except UrlParseError Str :=
  (urlparse url).map fun p => urlunparse (normParts p)

/-! ### Model of `AuditEngine._is_valid_url` (src/engine.py lines 148-201) -/

/-- The denylist of non-HTML resource extensions in `_is_valid_url`. -/
def skipExtensions : List Str :=
  [".pdf".toList, ".jpg".toList, ".jpeg".toList, ".png".toList,
   ".gif".toList, ".svg".toList, ".webp".toList, ".avif".toList,
   ".mp4".toList, ".mp3".toList, ".wav".toList, ".zip".toList,
   ".rar".toList, ".exe".toList, ".dmg".toList, ".css".toList,
   ".js".toList, ".json".toList, ".xml".toList, ".txt".toList,
   ".ico".toList]

/-- Model of `AuditEngine._is_valid_url`.  The regex exclusion patterns are
modeled by the total oracle `excluded` (`re.search` over
`self.excluded_patterns`; any exception inside the Python function is caught
and mapped to `False`, which the `Except`-match models for parse errors). -/
def is_valid_url (allowedDomain : Str) (excluded : String → Bool)
    (url : String) : Bool :=
  match urlparse url.toList with
  | .error _ => false
  | .ok p =>
    (p.scheme = "http".toList ∨ p.scheme = "https".toList) ∧
    lowerStr p.netloc = allowedDomain ∧
    ¬ excluded url ∧
    skipExtensions.all fun ext => ¬ ext.isSuffixOf (lowerStr p.path)

/-! ### Model of the crawl loop `AuditEngine.run` (src/engine.py lines 283-371)

The audit callback may return a single dict, a list of dicts, any other value
(ignored), or raise; results are tagged with the page URL.  `α` is the type of
one audit-result record. -/

inductive CbRes (α : Type) where
  | dict (a : α)
  | list (xs : List α)
  | other
  | raise

/-- The engine configuration together with the environment oracles:
`fetch` models `_fetch_page` (`none` = any fetch failure), `links` models
`_extract_links html current_url`, `callback` models the audit callback. -/
structure Cfg (α : Type) where
  maxPages : ℕ
  rateLimit : ℚ
  allowedDomain : Str
  excluded : String → Bool
  fetch : String → Option String
  links : String → String → List String
  callback : String → String → CbRes α

/-- The mutable state of one `run`: the pending queue, the visited set
(as a list), the collected results (tagged with their URL), and the
`pages_crawled` counter. -/
structure EngState (α : Type) where
  queue : List String
  visited : List String
  results : List (String × α)
  crawled : ℕ
deriving DecidableEq

/-- Observable events of one loop iteration: a page fetch (with success flag)
and the rate-limit pause (`time.sleep`). -/
inductive Event where
  | fetched (url : String) (ok : Bool)
  | slept
deriving DecidableEq

/-- The link-enqueueing loop at src/engine.py lines 359-361: each link is
appended only when it is neither visited nor already pending (later links in
the same batch see earlier ones already in the queue). -/
def enqueueLinks (visited queue : List String) (ls : List String) :
    List String :=
  ls.foldl (fun q l => if l ∉ visited ∧ l ∉ q then q ++ [l] else q) queue

inductive StepOut (α : Type) where
  | done
  | next (s : EngState α) (evs : List Event)
deriving DecidableEq

/-- One iteration of the `while` loop of `AuditEngine.run`:
stop when the queue is empty or the budget is reached; dequeue; skip if
visited; mark visited; skip if invalid; count, fetch; on success run the
callback (a raised exception is caught, collecting nothing), extract and
enqueue links, and pause when `rate_limit > 0`.  A failed fetch `continue`s
immediately (no links, no pause). -/
def step {α : Type} (cfg : Cfg α) (s : EngState α) : StepOut α :=
  match s.queue with
  | [] => .done
  | u :: rest =>
    if s.crawled < cfg.maxPages then
      if u ∈ s.visited then .next ⟨rest, s.visited, s.results, s.crawled⟩ []
      else
        let vis := s.visited ++ [u]
        if is_valid_url cfg.allowedDomain cfg.excluded u then
          match cfg.fetch u with
          | none => .next ⟨rest, vis, s.results, s.crawled + 1⟩ [.fetched u false]          | some html =>
            let res := match cfg.callback u html with
              | .dict a => s.results ++ [(u, a)]
              | .list xs => s.results ++ xs.map fun a => (u, a)
              | .other => s.results
              | .raise => s.results
            .next ⟨enqueueLinks vis rest (cfg.links html u), vis, res, s.crawled + 1⟩
              ((Event.fetched u true) :: if 0 < cfg.rateLimit then [.slept] else [])
        else .next ⟨rest, vis, s.results, s.crawled⟩ []
    else .done

theorem step_measure {α : Type} {cfg : Cfg α} {s s' : EngState α}
    {evs : List Event} (h : step cfg s = .next s' evs) :
    cfg.maxPages - s'.crawled < cfg.maxPages - s.crawled ∨
    (cfg.maxPages - s'.crawled = cfg.maxPages - s.crawled ∧
      s'.queue.length < s.queue.length) := by
  unfold step at h
  split at h
  · exact absurd h (by simp)
  next u rest hq =>
    rw [hq]
    split at h
    · split at h
      · injection h with h1 _
        rw [← h1]
        right; exact ⟨rfl, by simp⟩
      · split at h
        · split at h
          · injection h with h1 _
            rw [← h1]
            left
            dsimp only
            omega
          next hlt hv hval html hf =>
            injection h with h1 _
            rw [← h1]
            left
            dsimp only
            omega
        · injection h with h1 _
          rw [← h1]
          right; exact ⟨rfl, by simp⟩
    · exact absurd h (by simp)

/-- The loop of `AuditEngine.run`, iterating `step` from a state and
collecting the event trace. -/
def runFrom {α : Type} (cfg : Cfg α) (s : EngState α) :
    EngState α × List Event :=
  match h : step cfg s with
  | .done => (s, [])
  | .next s' evs =>
    let r := runFrom cfg s'
    (r.1, evs ++ r.2)
termination_by (cfg.maxPages - s.crawled, s.queue.length)
decreasing_by
  rcases step_measure h with h1 | ⟨h1, h2⟩
  · exact Prod.Lex.left _ _ h1
  · rw [h1]; exact Prod.Lex.right _ h2

/-- Entry point of `AuditEngine.run`: the queue is seeded with the (already
normalized) base URL, results are reset, the visited set is empty (a fresh
engine) and `pages_crawled = 0`. -/
def runEngine {α : Type} (cfg : Cfg α) (seed : String) :
    EngState α × List Event :=
  runFrom cfg ⟨[seed], [], [], 0⟩

/-- Count of page fetches in a trace. -/
def fetchCount (tr : List Event) : ℕ :=
  (tr.filter fun e => match e with | .fetched _ _ => true | _ => false).length

def isFetchEv : Event → Bool
  | .fetched _ _ => true
  | .slept => false

def isFetchSuccessEv : Event → Bool
  | .fetched _ true => true
  | _ => false

def isFetchFailureEv : Event → Bool
  | .fetched _ false => true
  | _ => false

/-- The discipline asserted by claim C8: the rate-limit pause happens
immediately after every fetch, successful or failed, before the next URL is
processed (in particular a trace never ends right after a fetch). -/
def sleepAfterEveryFetch (tr : List Event) : Prop :=
  List.Chain' (fun a b => isFetchEv a = true → b = .slept) tr ∧
  tr.getLast?.all (fun e => ¬ isFetchEv e) = true

/-- The discipline the code actually implements when `rate_limit > 0`: a
pause immediately after each successful fetch, and no pause after a failed
fetch (the `continue` at src/engine.py line 333 skips the `time.sleep`). -/
def sleepAfterSuccessOnly (tr : List Event) : Prop :=
  List.Chain' (fun a b => (isFetchSuccessEv a = true → b = .slept) ∧
    (isFetchFailureEv a = true → b ≠ .slept)) tr ∧
  tr.getLast?.all (fun e => ¬ isFetchSuccessEv e) = true

/-- A concrete configuration whose second page fails to fetch (used to
exhibit the missing pause after a failed fetch). -/
def cfgC8 : Cfg Unit :=
  ⟨3, 1, "x".toList, fun _ => false,
   (fun u => if u = "http://x/a" then none else some "h"),
   (fun _ u => if u = "http://x/" then ["http://x/a", "http://x/b"] else []),
   fun _ _ => .other⟩

/-- A concrete configuration whose callback records one finding per page. -/
def cfgC3 : Cfg ℕ :=
  ⟨3, 1, "x".toList, fun _ => false, fun _ => some "h",
   (fun _ u => if u = "http://x/" then ["http://x/a"] else []),
   fun _ _ => .dict 0⟩

/-- A callback agreeing with `cfgC3.callback` except that it raises on the
page `http://x/a`. -/
def cbC3 : String → String → CbRes ℕ :=
  fun v _ => if v = "http://x/a" then .raise else .dict 0

/-! ### Model of the colour utilities (src/core/design_auditor.py lines 19-61)

Python `int(s, 16)` on the two-character slices of the hex string: a slice of
one or two hex digits parses, anything else (empty slice, non-hex character)
raises `ValueError`, modeled as `none`. -/

def hexDigitVal (c : Char) : Option ℕ :=
  if c.isDigit then some (c.toNat - 48)
  else if 'a' ≤ c ∧ c ≤ 'f' then some (c.toNat - 87)
  else if 'A' ≤ c ∧ c ≤ 'F' then some (c.toNat - 55)
  else none

def parseHexSlice : Str → Option ℕ
  | [a, b] => do pure (16 * (← hexDigitVal a) + (← hexDigitVal b))
  | [a] => hexDigitVal a
  | _ => none

/-- Model of `hex_to_rgb` (src/core/design_auditor.py lines 19-24; the
identical `DesignAuditor._hex_to_rgb` of src/plugins/audit_design.py lines
851-861 takes the same slices): strip leading `#`s, double each digit of a
3-digit shorthand, parse the slices `[0:2]`, `[2:4]`, `[4:6]`. -/
def hex_to_rgb (hexColor : Str) : Option (ℕ × ℕ × ℕ) :=
  let h0 := hexColor.dropWhile fun c => c = '#'
  let h := if h0.length = 3 then (h0.map fun c => [c, c]).flatten else h0
  do pure (← parseHexSlice (h.take 2), ← parseHexSlice ((h.drop 2).take 2),
           ← parseHexSlice ((h.drop 4).take 2))

/-- The sRGB gamma correction of `rgb_to_lab` (real-valued model of the
float arithmetic). -/
noncomputable def gammaCorrect (x : ℝ) : ℝ :=
  if x > 0.04045 then ((x + 0.055) / 1.055) ^ (2.4 : ℝ) else x / 12.92

/-- The XYZ-to-LAB transfer function of `rgb_to_lab` (Python `x ** (1/3)`
modeled as the real power `x ^ (1/3 : ℝ)`). -/
noncomputable def labTransfer (t : ℝ) : ℝ :=
  if t > 0.008856 then t ^ ((1 : ℝ) / 3) else 7.787 * t + 16 / 116

/-- Model of `rgb_to_lab` (src/core/design_auditor.py lines 27-51). -/
noncomputable def rgb_to_lab (rgb : ℕ × ℕ × ℕ) : ℝ × ℝ × ℝ :=
  let r := gammaCorrect ((rgb.1 : ℝ) / 255)
  let g := gammaCorrect ((rgb.2.1 : ℝ) / 255)
  let b := gammaCorrect ((rgb.2.2 : ℝ) / 255)
  let x := labTransfer ((r * 0.4124564 + g * 0.3575761 + b * 0.1804375) / 0.95047)
  let y := labTransfer ((r * 0.2126729 + g * 0.7151522 + b * 0.0721750) / 1.00000)
  let z := labTransfer ((r * 0.0193339 + g * 0.1191920 + b * 0.9503041) / 1.08883)
  (116 * y - 16, 500 * (x - y), 200 * (y - z))

/-- Euclidean norm in LAB space, written as the Python `** 0.5`. -/
noncomputable def labDist (l1 l2 : ℝ × ℝ × ℝ) : ℝ :=
  ((l1.1 - l2.1) ^ 2 + (l1.2.1 - l2.2.1) ^ 2 + (l1.2.2 - l2.2.2) ^ 2) ^ (0.5 : ℝ)

/-- Model of `delta_e` (src/core/design_auditor.py lines 54-61); a
`ValueError` from either hex conversion propagates (`none`, caught by the
caller's bare `except`). -/
noncomputable def delta_e (c1 c2 : Str) : Option ℝ := do
  let rgb1 ← hex_to_rgb c1
  let rgb2 ← hex_to_rgb c2
  pure (labDist (rgb_to_lab rgb1) (rgb_to_lab rgb2))

/-! ### Model of `find_variable_candidate` (src/core/design_auditor.py
lines 128-189) -/

/-- The tolerance settings (`{'color_delta_e': 3.0, 'spacing_px': 2}`). -/
structure Tolerances where
  color_delta_e : ℝ
  spacing_px : ℤ

/-- The default tolerances used when none are supplied. -/
noncomputable def defaultTolerances : Tolerances := ⟨3, 2⟩

/-- Python dict lookup on the value-to-variable map, modeled as an
association list in insertion order (dict keys are unique; `find?` takes the
first binding). -/
def lookupMap (m : List (Str × Str)) (k : Str) : Option Str :=
  (m.find? fun kv => kv.1 = k).map fun kv => kv.2

/-- Python `round(x, 2)`: round half to even at two decimals, on exact
reals. -/
noncomputable def pyRound2 (x : ℝ) : ℝ :=
  let y := x * 100
  let f := ⌊y⌋
  (((if y - f < 1 / 2 then f
     else if 1 / 2 < y - f then f + 1
     else if Even f then f else f + 1) : ℤ) : ℝ) / 100

/-- Word characters for the `\b` boundary of the regex `\b(\d+)px\b`. -/
def isWordChar (c : Char) : Bool := c.isAlphanum ∨ c = '_'

/-- Numeric value of a digit string. -/
def digitsVal (ds : Str) : ℕ := ds.foldl (fun n c => 10 * n + (c.toNat - 48)) 0

/-- Model of `PATTERNS['pixel_value'].match(value)` for the anchored regex
`\b(\d+)px\b`: the string must begin with digits followed by `px` followed by
a non-word character or the end. -/
def pxMatchNum (v : Str) : Option ℕ :=
  let ds := v.takeWhile Char.isDigit
  let rest := v.dropWhile Char.isDigit
  if ds ≠ [] ∧ rest.take 2 = ['p', 'x'] ∧
      ((rest.drop 2).head?.all fun c => ¬ isWordChar c) then
    some (digitsVal ds)
  else none

/-- The possible non-`None` results of `find_variable_candidate`: an exact
match, a colour near-match (with the rounded delta-E recorded), or a pixel
near-match (with the signed pixel difference recorded). -/
inductive Candidate where
  | exact (varName : Str)
  | nearColor (varName : Str) (dE : ℝ)
  | nearPx (varName : Str) (diffPx : ℤ)

/-- Model of `find_variable_candidate` (src/core/design_auditor.py lines
128-189): normalize (lower + strip) and look up; look up the uppercased raw
value; for `#`-prefixed normalized values scan the `#`-prefixed references in
map order and return at the first whose delta-E is within tolerance
(conversion failures are skipped by the bare `except`); otherwise try the
pixel near-match; otherwise `None`. -/
noncomputable def find_variable_candidate (value : Str)
    (m : List (Str × Str)) (tol : Tolerances) : Option Candidate :=
  let normalized := stripStr (lowerStr value)
  match lookupMap m normalized with
  | some v => some (.exact v)
  | none =>
  match lookupMap m (upperStr value) with
  | some v => some (.exact v)
  | none =>
    let colorHit : Option Candidate :=
      if normalized.head? = some '#' then
        m.findSome? fun kv =>
          if kv.1.head? = some '#' then
            match delta_e normalized kv.1 with
            | some d =>
              if d ≤ tol.color_delta_e then
                some (.nearColor kv.2 (pyRound2 d))
              else none
            | none => none
          else none
      else none
    match colorHit with
    | some c => some c
    | none =>
      match pxMatchNum value with
      | some fpx =>
        m.findSome? fun kv =>
          match pxMatchNum kv.1 with
          | some kpx =>
            if |(fpx : ℤ) - (kpx : ℤ)| ≤ tol.spacing_px then
              some (.nearPx kv.2 ((fpx : ℤ) - (kpx : ℤ)))
            else none
          | none => none
      | none => none

/-! ### Model of `DesignAuditor._evaluate_color_value` and
`DesignAuditor._find_nearest_color` (src/plugins/audit_design.py lines
534-572 and 863-887) -/

/-- Euclidean distance in RGB space (`math.sqrt` over the channel
differences). -/
noncomputable def rgbDist (a b : ℕ × ℕ × ℕ) : ℝ :=
  Real.sqrt ((((a.1 : ℝ) - b.1)) ^ 2 + (((a.2.1 : ℝ) - b.2.1)) ^ 2 +
    (((a.2.2 : ℝ) - b.2.2)) ^ 2)

/-- Model of `DesignAuditor._find_nearest_color`: `none` models the Python
result `(None, inf)` (empty palette or unparseable input colour); otherwise
the approved colour with strictly smallest RGB distance, first-encountered
winning ties.  The `approved_colors` set is modeled as a list fixing one
iteration order (Python set order is implementation-defined). -/
noncomputable def find_nearest_color (approved : List Str) (hexColor : Str) :
    Option (Str × ℝ) :=
  if approved = [] then none
  else
    match hex_to_rgb hexColor with
    | none => none
    | some rgb1 =>
      approved.foldl
        (fun acc a =>
          match hex_to_rgb a with
          | none => acc
          | some rgb2 =>
            let d := rgbDist rgb1 rgb2
            match acc with
            | none => some (a, d)
            | some nd => if d < nd.2 then some (a, d) else acc)
        none

/-- The classification statuses produced by `_evaluate_color_value`
(config.py `STATUS_MATCH`, `STATUS_NEAR_MISS` with the distance interpolated
into the status string, `STATUS_ROGUE`). -/
inductive EvalStatus where
  | statusMatch
  | nearMiss (dist : ℝ)
  | rogue

/-- The expected/found/status record returned by `_evaluate_color_value`. -/
structure EvalResult where
  expected : Str
  found : Str
  status : EvalStatus

/-- The near-miss threshold `config.COLOR_NEAR_MISS_THRESHOLD` (config.py
line 82). -/
noncomputable def colorNearMissThreshold : ℝ := 10

/-- Model of `DesignAuditor._evaluate_color_value`: `transparent` always
matches; a colour in `approved_colors` matches; otherwise the nearest
approved colour within the threshold is a near-miss; otherwise rogue.
`nameOf` models `self.palette["get_color_name"]` (the palette dict is always
present after `__init__`). -/
noncomputable def evaluate_color_value (approved : List Str)
    (nameOf : Str → Str) (color : Str) : EvalResult :=
  let colorLower := lowerStr color
  if colorLower = "transparent".toList then
    ⟨"Any approved color or transparent".toList, "transparent".toList,
     .statusMatch⟩
  else if colorLower ∈ approved then
    ⟨nameOf colorLower ++ " (".toList ++ colorLower ++ ")".toList, colorLower,
     .statusMatch⟩
  else
    match find_nearest_color approved colorLower with
    | some nd =>
      if nd.2 ≤ colorNearMissThreshold then
        ⟨nameOf nd.1 ++ " (".toList ++ nd.1 ++ ")".toList, colorLower,
         .nearMiss nd.2⟩
      else ⟨"Any approved palette color".toList, colorLower, .rogue⟩
    | none => ⟨"Any approved palette color".toList, colorLower, .rogue⟩

/-- The first reference of the map whose key is `#`-prefixed and whose
delta-E to the normalized value is within tolerance, together with that
(unrounded) distance.  This names the scan order of the near-match loop of
`find_variable_candidate` so that the loop's result can be characterized. -/
noncomputable def firstColorHit (nv : Str) (m : List (Str × Str))
    (tol : ℝ) : Option (Str × ℝ) :=
  m.findSome? fun kv =>
    if kv.1.head? = some '#' then
      match delta_e nv kv.1 with
      | some d => if d ≤ tol then some (kv.2, d) else none
      | none => none
    else none

/-- The LAB delta-E between `#000000` and `#000001` (both colours are dark
enough that every branch of the conversion is the linear one, so this value
is the square root of an explicit rational). -/
noncomputable def cexDeltaC4 : ℝ :=
  labDist (rgb_to_lab (0, 0, 0)) (rgb_to_lab (0, 0, 1))

/-! ### Lemmas about the crawl loop -/

theorem fetchCount_append (a b : List Event) :
    fetchCount (a ++ b) = fetchCount a + fetchCount b := by
  simp [fetchCount]

theorem runFrom_done {α : Type} {cfg : Cfg α} {s : EngState α}
    (h : step cfg s = .done) : runFrom cfg s = (s, []) := by
  rw [runFrom]
  split
  · rfl
  next s' evs heq => rw [h] at heq; exact absurd heq (by simp)

theorem runFrom_next {α : Type} {cfg : Cfg α} {s s' : EngState α}
    {evs : List Event} (h : step cfg s = .next s' evs) :
    runFrom cfg s = ((runFrom cfg s').1, evs ++ (runFrom cfg s').2) := by
  rw [runFrom]
  split
  next heq => rw [h] at heq; exact absurd heq (by simp)
  next t evs' heq =>
    rw [h] at heq
    injection heq with h1 h2
    rw [h1, h2]

/-- The crawled counter and fetch events of one step: an iteration either
fetches nothing and leaves the counter alone, or fetches exactly once and
increments it, which requires the budget check to have passed. -/
theorem step_crawled {α : Type} {cfg : Cfg α} {s s' : EngState α}
    {evs : List Event} (h : step cfg s = .next s' evs) :
    (fetchCount evs = 0 ∧ s'.crawled = s.crawled) ∨
    (fetchCount evs = 1 ∧ s'.crawled = s.crawled + 1 ∧
      s.crawled < cfg.maxPages) := by
  unfold step at h
  split at h
  · exact absurd h (by simp)
  next u rest hq =>
    split at h
    next hlt =>
      split at h
      · injection h with h1 h2
        left; rw [← h1, ← h2]; exact ⟨rfl, rfl⟩
      · split at h
        · split at h
          · injection h with h1 h2
            right
            rw [← h1, ← h2]
            refine ⟨by simp [fetchCount], rfl, hlt⟩
          · injection h with h1 h2
            right
            rw [← h1, ← h2]
            refine ⟨?_, rfl, hlt⟩
            by_cases hr : 0 < cfg.rateLimit <;> simp [fetchCount, hr]
        · injection h with h1 h2
          left; rw [← h1, ← h2]; exact ⟨rfl, rfl⟩
    · exact absurd h (by simp)

theorem runFrom_fetchCount {α : Type} (cfg : Cfg α) (s : EngState α) :
    fetchCount (runFrom cfg s).2 ≤ cfg.maxPages - s.crawled := by
  induction s using runFrom.induct cfg with
  | case1 s h => rw [runFrom_done h]; simp [fetchCount]
  | case2 s s' evs h ih =>
    rw [runFrom_next h]
    simp only [fetchCount_append]
    rcases step_crawled h with ⟨h1, h2⟩ | ⟨h1, h2, h3⟩ <;> rw [h1] <;> omega

/-! ### States reachable during one execution of the crawl loop -/

/-- Reachability of an engine state from the initial state by loop
iterations; the quantification over all reachable states expresses a property
holding "throughout the execution" of `AuditEngine.run`. -/
inductive Reach {α : Type} (cfg : Cfg α) (init : EngState α) :
    EngState α → Prop where
  | refl : Reach cfg init init
  | tail {s s' : EngState α} {evs : List Event} :
      Reach cfg init s → step cfg s = .next s' evs → Reach cfg init s'

/-- The enqueue loop preserves queue distinctness and queue/visited
disjointness. -/
theorem enqueueLinks_inv {vis q : List String} (ls : List String)
    (h1 : q.Nodup) (h2 : ∀ u ∈ q, u ∉ vis) :
    (enqueueLinks vis q ls).Nodup ∧ ∀ u ∈ enqueueLinks vis q ls, u ∉ vis := by
  induction ls generalizing q with
  | nil => exact ⟨h1, h2⟩
  | cons l ls ih =>
    rw [enqueueLinks, List.foldl_cons]
    by_cases hc : l ∉ vis ∧ l ∉ q
    · rw [if_pos hc]
      refine ih ?_ ?_
      · simp [List.nodup_append, h1, hc.2]
      · intro u hu
        rcases List.mem_append.1 hu with hu | hu
        · exact h2 u hu
        · simp at hu; rw [hu]; exact hc.1
    · rw [if_neg hc]; exact ih h1 h2

/-- One iteration preserves the frontier invariant: the pending queue has no
duplicates and is disjoint from the visited set. -/
theorem step_preserves_inv {α : Type} {cfg : Cfg α} {s s' : EngState α}
    {evs : List Event} (h : step cfg s = .next s' evs)
    (h1 : s.queue.Nodup) (h2 : ∀ u ∈ s.queue, u ∉ s.visited) :
    s'.queue.Nodup ∧ ∀ u ∈ s'.queue, u ∉ s'.visited := by
  unfold step at h
  split at h
  · exact absurd h (by simp)
  next u rest hq =>
    rw [hq] at h1 h2
    have hrest : rest.Nodup := (List.nodup_cons.1 h1).2
    have hune : u ∉ rest := (List.nodup_cons.1 h1).1
    have hrestv : ∀ w ∈ rest, w ∉ s.visited := fun w hw =>
      h2 w (List.mem_cons_of_mem _ hw)
    have hrestvu : ∀ w ∈ rest, w ∉ s.visited ++ [u] := by
      intro w hw hmem
      rcases List.mem_append.1 hmem with hm | hm
      · exact hrestv w hw hm
      · simp at hm; exact hune (hm ▸ hw)
    split at h
    · split at h
      · injection h with hh _
        rw [← hh]
        exact ⟨hrest, hrestv⟩
      · split at h
        · split at h
          · injection h with hh _
            rw [← hh]
            exact ⟨hrest, hrestvu⟩
          · injection h with hh _
            rw [← hh]
            exact enqueueLinks_inv _ hrest hrestvu
        · injection h with hh _
          rw [← hh]
          exact ⟨hrest, hrestvu⟩
    · exact absurd h (by simp)

/-- After any iteration, the URL just dequeued is in the visited set of the
next state, and the visited set only grows. -/
theorem step_visited {α : Type} {cfg : Cfg α} {s s' : EngState α}
    {evs : List Event} {u : String} {rest : List String}
    (hq : s.queue = u :: rest) (h : step cfg s = .next s' evs) :
    u ∈ s'.visited ∧ s.visited ⊆ s'.visited := by
  unfold step at h
  rw [hq] at h
  simp only at h
  split at h
  next hlt =>
    split at h
    next hv =>
      injection h with hh _
      rw [← hh]
      exact ⟨hv, fun x hx => hx⟩
    next hv =>
      have hmem : u ∈ s.visited ++ [u] := by simp
      have hsub : s.visited ⊆ s.visited ++ [u] := fun x hx =>
        List.mem_append.2 (Or.inl hx)
      split at h
      · split at h
        · injection h with hh _
          rw [← hh]
          exact ⟨hmem, hsub⟩
        · injection h with hh _
          rw [← hh]
          exact ⟨hmem, hsub⟩
      · injection h with hh _
        rw [← hh]
        exact ⟨hmem, hsub⟩
  next hlt => exact absurd h (by simp)

/-! ### Claim C1: the max_pages budget bounds the fetch count -/

/-- Claim C1: for every `max_pages` value, every seed URL, and every
behaviour of the fetch / link-extraction / callback oracles,
`AuditEngine.run` issues at most `max_pages` page fetches before stopping,
however large the frontier queue grows.  The budget check
`pages_crawled < self.max_pages` guards the loop head, and `pages_crawled`
is incremented exactly once per fetch (src/engine.py lines 310, 326, 330). -/
theorem claim1_budget_bounds_fetches {α : Type} (cfg : Cfg α)
    (seed : String) :
    fetchCount (runEngine cfg seed).2 ≤ cfg.maxPages := by
  have h := runFrom_fetchCount cfg ⟨[seed], [], [], 0⟩
  rw [runEngine]
  omega

/-! ### Claim C2: the frontier invariant -/

/-- Claim C2: throughout any execution of `AuditEngine.run` (that is, in
every state reachable from the seeded initial state), each canonical URL is
pending at most once (`Nodup`), no pending URL is visited, and at every
iteration the dequeued URL ends up in the visited set, which only grows —
hence a dequeued URL is never enqueued again (the enqueue guard at
src/engine.py line 360 checks both the visited set and the queue), and
seeding or discovering the same canonical URL twice enqueues it only once. -/
theorem claim2_frontier_dedup_invariant {α : Type} (cfg : Cfg α)
    (seed : String) (s : EngState α)
    (h : Reach cfg ⟨[seed], [], [], 0⟩ s) :
    s.queue.Nodup ∧ (∀ u ∈ s.queue, u ∉ s.visited) ∧
    (∀ u rest s' evs, s.queue = u :: rest → step cfg s = .next s' evs →
      u ∈ s'.visited ∧ s.visited ⊆ s'.visited) := by
  induction h with
  | refl =>
    refine ⟨List.nodup_singleton _, by simp, ?_⟩
    intro u rest s' evs hq hstep
    exact step_visited hq hstep
  | tail hr hstep ih =>
    obtain ⟨h1, h2, _⟩ := ih
    obtain ⟨h1', h2'⟩ := step_preserves_inv hstep h1 h2
    refine ⟨h1', h2', ?_⟩
    intro u rest s' evs hq hstep'
    exact step_visited hq hstep'

/-- Witness for C2 at a concrete configuration and the (reachable) initial
state: the hypothesis is discharged by `Reach.refl` and the invariant
conclusion is obtained by applying the claim theorem. -/
theorem claim2_frontier_dedup_invariant_witness :
    (⟨["http://x/"], [], [], 0⟩ : EngState Unit).queue.Nodup ∧
    (∀ u ∈ (⟨["http://x/"], [], [], 0⟩ : EngState Unit).queue,
        u ∉ (⟨["http://x/"], [], [], 0⟩ : EngState Unit).visited) ∧
    (∀ u rest s' evs,
        (⟨["http://x/"], [], [], 0⟩ : EngState Unit).queue = u :: rest →
        step (⟨3, 1, "x".toList, fun _ => false, fun _ => some "h",
               fun _ _ => [], fun _ _ => CbRes.other⟩ : Cfg Unit)
          ⟨["http://x/"], [], [], 0⟩ = .next s' evs →
        u ∈ s'.visited ∧
        (⟨["http://x/"], [], [], 0⟩ : EngState Unit).visited ⊆ s'.visited) :=
  claim2_frontier_dedup_invariant
    (⟨3, 1, "x".toList, fun _ => false, fun _ => some "h",
      fun _ _ => [], fun _ _ => CbRes.other⟩ : Cfg Unit)
    "http://x/" _ Reach.refl

/-! ### Claim C9: invalid URLs are visited but consume no budget -/

/-- Claim C9: a dequeued URL that fails `_is_valid_url` (non-http/https
scheme, host other than the allowed domain, an exclusion-pattern hit, or a
denylisted extension) is added to the visited set — so it is never retried —
but `pages_crawled` is not incremented, no fetch is issued, and no links are
extracted (src/engine.py lines 318-323: `continue` after `visited.add`
before the `pages_crawled += 1`). -/
theorem claim9_invalid_url_no_budget {α : Type} (cfg : Cfg α)
    (s : EngState α) (u : String) (rest : List String)
    (hq : s.queue = u :: rest) (hbudget : s.crawled < cfg.maxPages)
    (hv : u ∉ s.visited)
    (hinvalid : is_valid_url cfg.allowedDomain cfg.excluded u = false) :
    step cfg s = .next ⟨rest, s.visited ++ [u], s.results, s.crawled⟩ [] := by
  unfold step
  rw [hq]
  dsimp only
  rw [if_pos hbudget, if_neg hv, if_neg (by simp [hinvalid])]

/-- Witness for C9: a dequeued `ftp://` URL (invalid scheme) is marked
visited while the crawl counter stays at zero and no fetch event occurs. -/
theorem claim9_invalid_url_no_budget_witness :
    (⟨["ftp://x/a"], [], [], 0⟩ : EngState Unit).queue = "ftp://x/a" :: [] ∧
    (0 : ℕ) < 5 ∧
    "ftp://x/a" ∉ ([] : List String) ∧
    is_valid_url "x".toList (fun _ => false) "ftp://x/a" = false ∧
    step (⟨5, 1, "x".toList, fun _ => false, fun _ => some "h",
           fun _ _ => [], fun _ _ => CbRes.other⟩ : Cfg Unit)
        ⟨["ftp://x/a"], [], [], 0⟩ =
      .next ⟨[], [] ++ ["ftp://x/a"], [], 0⟩ [] :=
  ⟨rfl, by norm_num, by simp, by decide,
   claim9_invalid_url_no_budget _ _ "ftp://x/a" [] rfl (by norm_num)
     (by simp) (by decide)⟩

/-! ### Claim C8: when the rate-limit pause happens -/

/-- The event batches a single iteration can emit. -/
theorem step_evs_shape {α : Type} {cfg : Cfg α} {s s' : EngState α}
    {evs : List Event} (h : step cfg s = .next s' evs) :
    evs = [] ∨ (∃ u, evs = [.fetched u false]) ∨
    (∃ u, evs = .fetched u true ::
      (if 0 < cfg.rateLimit then [.slept] else [])) := by
  unfold step at h
  split at h
  · exact absurd h (by simp)
  next u rest hq =>
    split at h
    · split at h
      · injection h with _ h2; exact Or.inl h2.symm
      · split at h
        · split at h
          · injection h with _ h2
            exact Or.inr (Or.inl ⟨u, h2.symm⟩)
          · injection h with _ h2
            exact Or.inr (Or.inr ⟨u, h2.symm⟩)
        · injection h with _ h2; exact Or.inl h2.symm
    · exact absurd h (by simp)

theorem lastOk_cons (e : Event) (he : isFetchSuccessEv e = false)
    {tr : List Event}
    (h : tr.getLast?.all (fun x => ¬ isFetchSuccessEv x) = true) :
    (e :: tr).getLast?.all (fun x => ¬ isFetchSuccessEv x) = true := by
  match tr with
  | [] => simp [he]
  | x :: xs => rw [List.getLast?_cons_cons]; exact h

theorem runFrom_sleepDiscipline {α : Type} (cfg : Cfg α)
    (hrl : 0 < cfg.rateLimit) (s : EngState α) :
    sleepAfterSuccessOnly (runFrom cfg s).2 ∧
    (runFrom cfg s).2.head?.all (fun e => e ≠ .slept) = true := by
  induction s using runFrom.induct cfg with
  | case1 s h =>
    rw [runFrom_done h]
    exact ⟨⟨List.chain'_nil, rfl⟩, rfl⟩
  | case2 s s' evs h ih =>
    rw [runFrom_next h]
    obtain ⟨⟨ihch, ihlast⟩, ihhead⟩ := ih
    rcases step_evs_shape h with hevs | ⟨u, hevs⟩ | ⟨u, hevs⟩ <;> subst hevs
    · exact ⟨⟨by simpa using ihch, by simpa using ihlast⟩, by simpa using ihhead⟩
    · refine ⟨⟨?_, ?_⟩, by simp⟩
      · rw [List.cons_append, List.nil_append, List.chain'_cons']
        refine ⟨?_, ihch⟩
        intro y hy
        refine ⟨fun habs => by simp [isFetchSuccessEv] at habs,
                fun _ hy' => ?_⟩
        rw [hy'] at hy
        rw [Option.mem_def] at hy
        rw [hy] at ihhead
        simp at ihhead
      · rw [List.cons_append, List.nil_append]
        exact lastOk_cons _ (by simp [isFetchSuccessEv]) ihlast
    · rw [if_pos hrl]
      refine ⟨⟨?_, ?_⟩, by simp⟩
      · rw [List.cons_append, List.cons_append, List.nil_append,
            List.chain'_cons']
        refine ⟨fun y hy => ?_, ?_⟩
        · simp only [List.head?_cons, Option.mem_def, Option.some.injEq] at hy
          refine ⟨fun _ => hy.symm, fun habs => ?_⟩
          simp [isFetchFailureEv] at habs
        · rw [List.chain'_cons']
          refine ⟨fun y hy => ?_, ihch⟩
          refine ⟨fun habs => by simp [isFetchSuccessEv] at habs,
                  fun habs => by simp [isFetchFailureEv] at habs⟩
      · rw [List.cons_append, List.cons_append, List.nil_append,
            List.getLast?_cons_cons]
        exact lastOk_cons _ (by simp [isFetchSuccessEv]) ihlast

/-- Counterexample to claim C8 as stated: with `cfgC8` (rate limit 1 > 0)
the seed page fetches successfully and is followed by the pause, but the
failed fetch of `http://x/a` is immediately followed by the next fetch with
no pause in between — the `continue` on fetch failure skips `time.sleep`.
So the delay is not applied after each processed page when the fetch
failed. -/
theorem claim8_counterexample :
    (runEngine cfgC8 "http://x/").2 =
      [.fetched "http://x/" true, .slept, .fetched "http://x/a" false,
       .fetched "http://x/b" true, .slept] ∧
    ¬ sleepAfterEveryFetch
        [.fetched "http://x/" true, .slept, .fetched "http://x/a" false,
         .fetched "http://x/b" true, .slept] := by
  constructor
  · rw [runEngine,
      runFrom_next (show step cfgC8 ⟨["http://x/"], [], [], 0⟩ =
        .next ⟨["http://x/a", "http://x/b"], ["http://x/"], [], 1⟩
          [.fetched "http://x/" true, .slept] by decide),
      runFrom_next (show step cfgC8
          ⟨["http://x/a", "http://x/b"], ["http://x/"], [], 1⟩ =
        .next ⟨["http://x/b"], ["http://x/", "http://x/a"], [], 2⟩
          [.fetched "http://x/a" false] by decide),
      runFrom_next (show step cfgC8
          ⟨["http://x/b"], ["http://x/", "http://x/a"], [], 2⟩ =
        .next ⟨[], ["http://x/", "http://x/a", "http://x/b"], [], 3⟩
          [.fetched "http://x/b" true, .slept] by decide),
      runFrom_done (show step cfgC8
          ⟨[], ["http://x/", "http://x/a", "http://x/b"], [], 3⟩ =
        .done by decide)]
    simp
  · intro hdisc
    obtain ⟨hch, _⟩ := hdisc
    have h1 := List.chain'_cons.1 hch
    have h2 := List.chain'_cons.1 h1.2
    have h3 := List.chain'_cons.1 h2.2
    have := h3.1 (by simp [isFetchEv])
    simp at this

/-- Claim C8, amended: when `rate_limit > 0` the fixed delay is applied
immediately after each page whose fetch succeeded, before the next URL is
dequeued; after a failed fetch the loop continues to the next URL without a
delay. -/
theorem claim8_rate_limit_after_success {α : Type} (cfg : Cfg α)
    (seed : String) (hrl : 0 < cfg.rateLimit) :
    sleepAfterSuccessOnly (runEngine cfg seed).2 :=
  (runFrom_sleepDiscipline cfg hrl _).1

/-- Witness for the amended C8 at a concrete configuration with rate limit
1. -/
theorem claim8_rate_limit_after_success_witness :
    0 < (cfgC8.rateLimit : ℚ) ∧
    sleepAfterSuccessOnly (runEngine cfgC8 "http://x/").2 :=
  ⟨by norm_num [cfgC8], claim8_rate_limit_after_success cfgC8 "http://x/"
    (by norm_num [cfgC8])⟩

/-! ### Claim C3: a raising audit callback is isolated -/

/-- One iteration compared across two engines that differ only in the
callback, where the second callback raises on page `P` and agrees with the
first elsewhere.  States related by erasing the `P`-tagged results step in
lockstep: same control flow, same events, and results again related by
erasure — the engine catches the exception after which link extraction and
enqueueing proceed unchanged (src/engine.py lines 336-361). -/
theorem step_callback_rel {α : Type} {cfg : Cfg α}
    {cb' : String → String → CbRes α} {P : String}
    (hagree : ∀ v h, v ≠ P → cb' v h = cfg.callback v h)
    (hraise : ∀ h, cb' P h = .raise) (s : EngState α)
    (rs' : List (String × α)) (hrs' : rs' = s.results.filter fun x => x.1 ≠ P) :
    (step cfg s = .done →
      step {cfg with callback := cb'} {s with results := rs'} = .done) ∧
    (∀ s' evs, step cfg s = .next s' evs →
      step {cfg with callback := cb'} {s with results := rs'} =
        .next {s' with results := s'.results.filter fun x => x.1 ≠ P} evs) := by
  match hq : s.queue with
  | [] =>
    have h2 : step {cfg with callback := cb'}
        ⟨[], s.visited, rs', s.crawled⟩ = .done := rfl
    have h1 : step cfg s = .done := by unfold step; rw [hq]
    exact ⟨fun _ => h2, fun s' evs h => absurd (h1.symm.trans h) (by simp)⟩
  | u :: rest =>
    by_cases hlt : s.crawled < cfg.maxPages
    · by_cases hvis : u ∈ s.visited
      · have h1 : step cfg s =
            .next ⟨rest, s.visited, s.results, s.crawled⟩ [] := by
          unfold step; rw [hq]; dsimp only; rw [if_pos hlt, if_pos hvis]
        have h2 : step {cfg with callback := cb'}
            ⟨u :: rest, s.visited, rs', s.crawled⟩ =
            .next ⟨rest, s.visited, rs', s.crawled⟩ [] := by
          unfold step; dsimp only
          rw [if_pos hlt, if_pos hvis]
        refine ⟨fun h => absurd (h1.symm.trans h) (by simp),
                fun s' evs h => ?_⟩
        rw [h1] at h
        injection h with ha hb
        rw [h2, ← ha, ← hb]
        dsimp only
        rw [hrs']
      · by_cases hval : is_valid_url cfg.allowedDomain cfg.excluded u
        · match hf : cfg.fetch u with
          | none =>
            have h1 : step cfg s =
                .next ⟨rest, s.visited ++ [u], s.results, s.crawled + 1⟩
                  [.fetched u false] := by
              unfold step; rw [hq]; dsimp only
              rw [if_pos hlt, if_neg hvis, if_pos hval, hf]
            have h2 : step {cfg with callback := cb'}
                ⟨u :: rest, s.visited, rs', s.crawled⟩ =
                .next ⟨rest, s.visited ++ [u], rs', s.crawled + 1⟩
                  [.fetched u false] := by
              unfold step; dsimp only
              rw [if_pos hlt, if_neg hvis, if_pos hval, hf]
            refine ⟨fun h => absurd (h1.symm.trans h) (by simp),
                    fun s' evs h => ?_⟩
            rw [h1] at h
            injection h with ha hb
            rw [h2, ← ha, ← hb]
            dsimp only
            rw [hrs']
          | some html =>
            match hcb : cfg.callback u html with
            | .dict a =>
              have h1 : step cfg s =
                  .next ⟨enqueueLinks (s.visited ++ [u]) rest
                           (cfg.links html u),
                         s.visited ++ [u], s.results ++ [(u, a)],
                         s.crawled + 1⟩
                    (Event.fetched u true ::
                      if 0 < cfg.rateLimit then [.slept] else []) := by
                unfold step; rw [hq]; dsimp only
                rw [if_pos hlt, if_neg hvis, if_pos hval, hf]
                dsimp only
                rw [hcb]
              by_cases hP : u = P
              · have hcb2 : cb' u html = .raise := by
                  rw [hP]; exact hraise html
                have h2 : step {cfg with callback := cb'}
                    ⟨u :: rest, s.visited, rs', s.crawled⟩ =
                    .next ⟨enqueueLinks (s.visited ++ [u]) rest
                             (cfg.links html u),
                           s.visited ++ [u], rs', s.crawled + 1⟩
                      (Event.fetched u true ::
                        if 0 < cfg.rateLimit then [.slept] else []) := by
                  unfold step; dsimp only
                  rw [if_pos hlt, if_neg hvis, if_pos hval, hf]
                  dsimp only
                  rw [hcb2]
                have hres : rs' =
                    (s.results ++ [(u, a)]).filter fun x => x.1 ≠ P := by
                  rw [List.filter_append, hrs', hP]; simp
                refine ⟨fun h => absurd (h1.symm.trans h) (by simp),
                        fun s' evs h => ?_⟩
                rw [h1] at h
                injection h with ha hb
                rw [h2, ← ha, ← hb]
                dsimp only
                rw [← hres]
              · have hcb2 : cb' u html = .dict a := by
                  rw [hagree u html hP, hcb]
                have h2 : step {cfg with callback := cb'}
                    ⟨u :: rest, s.visited, rs', s.crawled⟩ =
                    .next ⟨enqueueLinks (s.visited ++ [u]) rest
                             (cfg.links html u),
                           s.visited ++ [u], rs' ++ [(u, a)],
                           s.crawled + 1⟩
                      (Event.fetched u true ::
                        if 0 < cfg.rateLimit then [.slept] else []) := by
                  unfold step; dsimp only
                  rw [if_pos hlt, if_neg hvis, if_pos hval, hf]
                  dsimp only
                  rw [hcb2]
                have hres : rs' ++ [(u, a)] =
                    (s.results ++ [(u, a)]).filter fun x => x.1 ≠ P := by
                  rw [List.filter_append, hrs']; simp [hP]
                refine ⟨fun h => absurd (h1.symm.trans h) (by simp),
                        fun s' evs h => ?_⟩
                rw [h1] at h
                injection h with ha hb
                rw [h2, ← ha, ← hb]
                dsimp only
                rw [← hres]
            | .list xs =>
              have h1 : step cfg s =
                  .next ⟨enqueueLinks (s.visited ++ [u]) rest
                           (cfg.links html u),
                         s.visited ++ [u],
                         s.results ++ xs.map fun a => (u, a),
                         s.crawled + 1⟩
                    (Event.fetched u true ::
                      if 0 < cfg.rateLimit then [.slept] else []) := by
                unfold step; rw [hq]; dsimp only
                rw [if_pos hlt, if_neg hvis, if_pos hval, hf]
                dsimp only
                rw [hcb]
              by_cases hP : u = P
              · have hcb2 : cb' u html = .raise := by
                  rw [hP]; exact hraise html
                have h2 : step {cfg with callback := cb'}
                    ⟨u :: rest, s.visited, rs', s.crawled⟩ =
                    .next ⟨enqueueLinks (s.visited ++ [u]) rest
                             (cfg.links html u),
                           s.visited ++ [u], rs', s.crawled + 1⟩
                      (Event.fetched u true ::
                        if 0 < cfg.rateLimit then [.slept] else []) := by
                  unfold step; dsimp only
                  rw [if_pos hlt, if_neg hvis, if_pos hval, hf]
                  dsimp only
                  rw [hcb2]
                have hres : rs' =
                    (s.results ++ xs.map fun a => (u, a)).filter
                      fun x => x.1 ≠ P := by
                  rw [List.filter_append, hrs', hP]; simp
                refine ⟨fun h => absurd (h1.symm.trans h) (by simp),
                        fun s' evs h => ?_⟩
                rw [h1] at h
                injection h with ha hb
                rw [h2, ← ha, ← hb]
                dsimp only
                rw [← hres]
              · have hcb2 : cb' u html = .list xs := by
                  rw [hagree u html hP, hcb]
                have h2 : step {cfg with callback := cb'}
                    ⟨u :: rest, s.visited, rs', s.crawled⟩ =
                    .next ⟨enqueueLinks (s.visited ++ [u]) rest
                             (cfg.links html u),
                           s.visited ++ [u],
                           rs' ++ xs.map fun a => (u, a),
                           s.crawled + 1⟩
                      (Event.fetched u true ::
                        if 0 < cfg.rateLimit then [.slept] else []) := by
                  unfold step; dsimp only
                  rw [if_pos hlt, if_neg hvis, if_pos hval, hf]
                  dsimp only
                  rw [hcb2]
                have hres : rs' ++ xs.map (fun a => (u, a)) =
                    (s.results ++ xs.map fun a => (u, a)).filter
                      fun x => x.1 ≠ P := by
                  rw [List.filter_append, hrs']
                  congr 1
                  rw [eq_comm, List.filter_eq_self]
                  intro x hx
                  obtain ⟨a, _, hxa⟩ := List.mem_map.1 hx
                  rw [← hxa]
                  simp [hP]
                refine ⟨fun h => absurd (h1.symm.trans h) (by simp),
                        fun s' evs h => ?_⟩
                rw [h1] at h
                injection h with ha hb
                rw [h2, ← ha, ← hb]
                dsimp only
                rw [← hres]
            | .other =>
              have h1 : step cfg s =
                  .next ⟨enqueueLinks (s.visited ++ [u]) rest
                           (cfg.links html u),
                         s.visited ++ [u], s.results, s.crawled + 1⟩
                    (Event.fetched u true ::
                      if 0 < cfg.rateLimit then [.slept] else []) := by
                unfold step; rw [hq]; dsimp only
                rw [if_pos hlt, if_neg hvis, if_pos hval, hf]
                dsimp only
                rw [hcb]
              have hcb2 : cb' u html = .raise ∨ cb' u html = .other := by
                by_cases hP : u = P
                · exact Or.inl (by rw [hP]; exact hraise html)
                · exact Or.inr (by rw [hagree u html hP, hcb])
              have h2 : step {cfg with callback := cb'}
                  ⟨u :: rest, s.visited, rs', s.crawled⟩ =
                  .next ⟨enqueueLinks (s.visited ++ [u]) rest
                           (cfg.links html u),
                         s.visited ++ [u], rs', s.crawled + 1⟩
                    (Event.fetched u true ::
                      if 0 < cfg.rateLimit then [.slept] else []) := by
                unfold step; dsimp only
                rw [if_pos hlt, if_neg hvis, if_pos hval, hf]
                dsimp only
                rcases hcb2 with hcb2 | hcb2 <;> rw [hcb2]
              refine ⟨fun h => absurd (h1.symm.trans h) (by simp),
                      fun s' evs h => ?_⟩
              rw [h1] at h
              injection h with ha hb
              rw [h2, ← ha, ← hb]
              dsimp only
              rw [hrs']
            | .raise =>
              have h1 : step cfg s =
                  .next ⟨enqueueLinks (s.visited ++ [u]) rest
                           (cfg.links html u),
                         s.visited ++ [u], s.results, s.crawled + 1⟩
                    (Event.fetched u true ::
                      if 0 < cfg.rateLimit then [.slept] else []) := by
                unfold step; rw [hq]; dsimp only
                rw [if_pos hlt, if_neg hvis, if_pos hval, hf]
                dsimp only
                rw [hcb]
              have hcb2 : cb' u html = .raise := by
                by_cases hP : u = P
                · rw [hP]; exact hraise html
                · rw [hagree u html hP, hcb]
              have h2 : step {cfg with callback := cb'}
                  ⟨u :: rest, s.visited, rs', s.crawled⟩ =
                  .next ⟨enqueueLinks (s.visited ++ [u]) rest
                           (cfg.links html u),
                         s.visited ++ [u], rs', s.crawled + 1⟩
                    (Event.fetched u true ::
                      if 0 < cfg.rateLimit then [.slept] else []) := by
                unfold step; dsimp only
                rw [if_pos hlt, if_neg hvis, if_pos hval, hf]
                dsimp only
                rw [hcb2]
              refine ⟨fun h => absurd (h1.symm.trans h) (by simp),
                      fun s' evs h => ?_⟩
              rw [h1] at h
              injection h with ha hb
              rw [h2, ← ha, ← hb]
              dsimp only
              rw [hrs']
        · have h1 : step cfg s =
              .next ⟨rest, s.visited ++ [u], s.results, s.crawled⟩ [] := by
            unfold step; rw [hq]; dsimp only
            rw [if_pos hlt, if_neg hvis, if_neg hval]
          have h2 : step {cfg with callback := cb'}
              ⟨u :: rest, s.visited, rs', s.crawled⟩ =
              .next ⟨rest, s.visited ++ [u], rs', s.crawled⟩ [] := by
            unfold step; dsimp only
            rw [if_pos hlt, if_neg hvis, if_neg hval]
          refine ⟨fun h => absurd (h1.symm.trans h) (by simp),
                  fun s' evs h => ?_⟩
          rw [h1] at h
          injection h with ha hb
          rw [h2, ← ha, ← hb]
          dsimp only
          rw [hrs']
    · have h2 : step {cfg with callback := cb'}
          ⟨u :: rest, s.visited, rs', s.crawled⟩ = .done := by
        unfold step; dsimp only; rw [if_neg hlt]
      have h1 : step cfg s = .done := by
        unfold step; rw [hq]; dsimp only; rw [if_neg hlt]
      exact ⟨fun _ => h2, fun s' evs h => absurd (h1.symm.trans h) (by simp)⟩

theorem runFrom_callback_rel {α : Type} {cfg : Cfg α}
    {cb' : String → String → CbRes α} {P : String}
    (hagree : ∀ v h, v ≠ P → cb' v h = cfg.callback v h)
    (hraise : ∀ h, cb' P h = .raise) (s : EngState α) :
    runFrom {cfg with callback := cb'}
        {s with results := s.results.filter fun x => x.1 ≠ P} =
      ({(runFrom cfg s).1 with
          results := (runFrom cfg s).1.results.filter fun x => x.1 ≠ P},
       (runFrom cfg s).2) := by
  induction s using runFrom.induct cfg with
  | case1 s h =>
    rw [runFrom_done h,
        runFrom_done ((step_callback_rel hagree hraise s _ rfl).1 h)]
  | case2 s s' evs h ih =>
    rw [runFrom_next h,
        runFrom_next ((step_callback_rel hagree hraise s _ rfl).2 s' evs h),
        ih]

/-- Claim C3: if the audit callback raises for one page `P`,
`AuditEngine.run` catches the exception, still extracts and enqueues that
page's links, and goes on crawling: compared with a callback that behaves
identically except for raising at `P`, the whole event trace (fetches and
pauses), the final queue, visited set and page counter are unchanged, and
the collected results are exactly the original ones with the entries of
page `P` removed — findings of other pages (before or after `P`) are
untouched. -/
theorem claim3_callback_exception_isolated {α : Type} (cfg : Cfg α)
    (cb' : String → String → CbRes α) (P seed : String)
    (hagree : ∀ v h, v ≠ P → cb' v h = cfg.callback v h)
    (hraise : ∀ h, cb' P h = .raise) :
    (runEngine {cfg with callback := cb'} seed).2 =
      (runEngine cfg seed).2 ∧
    (runEngine {cfg with callback := cb'} seed).1.queue =
      (runEngine cfg seed).1.queue ∧
    (runEngine {cfg with callback := cb'} seed).1.visited =
      (runEngine cfg seed).1.visited ∧
    (runEngine {cfg with callback := cb'} seed).1.crawled =
      (runEngine cfg seed).1.crawled ∧
    (runEngine {cfg with callback := cb'} seed).1.results =
      (runEngine cfg seed).1.results.filter fun x => x.1 ≠ P := by
  have h := runFrom_callback_rel hagree hraise (⟨[seed], [], [], 0⟩ : EngState α)
  dsimp only at h
  simp only [List.filter_nil] at h
  rw [runEngine, runEngine, h]
  exact ⟨rfl, rfl, rfl, rfl, rfl⟩

/-- Witness for C3 at a concrete configuration: the callback raising on
`http://x/a` leaves the trace and the other page's findings unchanged. -/
theorem claim3_callback_exception_isolated_witness :
    (runEngine {cfgC3 with callback := cbC3} "http://x/").2 =
      (runEngine cfgC3 "http://x/").2 ∧
    (runEngine {cfgC3 with callback := cbC3} "http://x/").1.queue =
      (runEngine cfgC3 "http://x/").1.queue ∧
    (runEngine {cfgC3 with callback := cbC3} "http://x/").1.visited =
      (runEngine cfgC3 "http://x/").1.visited ∧
    (runEngine {cfgC3 with callback := cbC3} "http://x/").1.crawled =
      (runEngine cfgC3 "http://x/").1.crawled ∧
    (runEngine {cfgC3 with callback := cbC3} "http://x/").1.results =
      (runEngine cfgC3 "http://x/").1.results.filter
        fun x => x.1 ≠ "http://x/a" :=
  claim3_callback_exception_isolated cfgC3 cbC3 "http://x/a" "http://x/"
    (fun v h hv => by simp [cbC3, cfgC3, hv]) (fun h => by simp [cbC3])

/-! ### Claim C6: parse failures propagate out of normalization -/

/-- Claim C6: `_normalize_url` applies no exception handling, so when
`urlparse` fails (the mismatched-bracket `ValueError`, named `UrlParseError`
by the spec), the error propagates to the caller of normalize instead of a
best-guess value being returned. -/
theorem claim6_url_parse_error_propagates (u : Str) (e : UrlParseError)
    (h : urlparse u = .error e) : normalize_url u = .error e := by
  unfold normalize_url
  rw [h]
  rfl

/-- Witness for C6: the malformed URL `http://[a` (unmatched bracket) makes
`urlparse` fail, and `_normalize_url` returns that same error. -/
theorem claim6_url_parse_error_propagates_witness :
    urlparse "http://[a".toList = .error .invalidIPv6 ∧
    normalize_url "http://[a".toList = .error .invalidIPv6 :=
  ⟨rfl, claim6_url_parse_error_propagates _ _ rfl⟩

/-! ### Claim C7: which literal lookups produce an exact match -/

/-- Counterexample to claim C7 as stated: the value `foo` appears verbatim
up to letter case as the key `fOo` of the map, yet the classifier returns
`None`: the code only probes the lowercased+stripped value and the
uppercased value against the literal keys, so a mixed-case key is found by
neither probe (src/core/design_auditor.py lines 143-157). -/
theorem claim7_counterexample :
    lowerStr "foo".toList = lowerStr "fOo".toList ∧
    find_variable_candidate "foo".toList [("fOo".toList, "v".toList)]
      defaultTolerances = none :=
  ⟨by decide, rfl⟩

/-- Claim C7, amended: a found value whose lowercased-and-stripped form is
literally a key of the reference map classifies as an exact match carrying
that key's variable name; failing that, a found value whose uppercased form
is literally a key classifies as an exact match likewise.  (Keys in other
mixed cases are not matched.) -/
theorem claim7_exact_match (value : Str) (m : List (Str × Str))
    (tol : Tolerances) :
    (∀ v, lookupMap m (stripStr (lowerStr value)) = some v →
      find_variable_candidate value m tol = some (.exact v)) ∧
    (lookupMap m (stripStr (lowerStr value)) = none →
      ∀ v, lookupMap m (upperStr value) = some v →
        find_variable_candidate value m tol = some (.exact v)) := by
  constructor
  · intro v hv
    unfold find_variable_candidate
    dsimp only
    rw [hv]
  · intro h0 v hv
    unfold find_variable_candidate
    dsimp only
    rw [h0, hv]

/-- Witness for the amended C7: value `A`, map key `a`. -/
theorem claim7_exact_match_witness :
    lookupMap [("a".toList, "x".toList)] (stripStr (lowerStr "A".toList)) =
      some "x".toList ∧
    find_variable_candidate "A".toList [("a".toList, "x".toList)]
      defaultTolerances = some (.exact "x".toList) :=
  ⟨by decide,
   (claim7_exact_match "A".toList [("a".toList, "x".toList)]
      defaultTolerances).1 "x".toList (by decide)⟩

/-! ### Claim C10: `transparent` always matches -/

/-- Claim C10: for the colour `transparent` in any letter case,
`_evaluate_color_value` returns status Match with found value
`transparent`, for every palette (the branch fires before any palette
access, so the empty palette included). -/
theorem claim10_transparent_matches (approved : List Str)
    (nameOf : Str → Str) (color : Str)
    (h : lowerStr color = "transparent".toList) :
    evaluate_color_value approved nameOf color =
      ⟨"Any approved color or transparent".toList, "transparent".toList,
       .statusMatch⟩ := by
  unfold evaluate_color_value
  dsimp only
  rw [h, if_pos rfl]

/-- Witness for C10: `TRANSPARENT` against the empty palette. -/
theorem claim10_transparent_matches_witness :
    lowerStr "TRANSPARENT".toList = "transparent".toList ∧
    evaluate_color_value [] (fun _ => []) "TRANSPARENT".toList =
      ⟨"Any approved color or transparent".toList, "transparent".toList,
       .statusMatch⟩ :=
  ⟨by decide,
   claim10_transparent_matches [] (fun _ => []) "TRANSPARENT".toList
     (by decide)⟩

/-! ### Claim C4: the colour near-match scan -/

theorem toLower_digit {c : Char} (h : c.isDigit = true) :
    Char.toLower c = c := by
  simp [Char.isDigit] at h
  have h2 : c.toNat ≤ 57 := h.2
  unfold Char.toLower
  rw [if_neg]
  omega

theorem dropWhile_append_last {p : Char → Bool} {c : Char}
    (hc : p c = false) (xs : Str) :
    ∃ ys, (xs ++ [c]).dropWhile p = ys ++ [c] := by
  induction xs with
  | nil => exact ⟨[], by simp [List.dropWhile, hc]⟩
  | cons x t ih =>
    by_cases hx : p x
    · obtain ⟨ys, hys⟩ := ih
      exact ⟨ys, by simp [List.dropWhile, hx, hys]⟩
    · exact ⟨x :: t, by simp [List.dropWhile, hx]⟩

theorem stripStr_head {c : Char} {t : Str} (hc : isPySpace c = false) :
    (stripStr (c :: t)).head? = some c := by
  unfold stripStr
  rw [List.dropWhile_cons_of_neg (by simp [hc])]
  rw [List.reverse_cons]
  obtain ⟨ys, hys⟩ := dropWhile_append_last hc t.reverse
  rw [hys, List.reverse_append]
  rfl

theorem pxMatchNum_head {v : Str} {n : ℕ} (h : pxMatchNum v = some n) :
    ∃ c t, v = c :: t ∧ c.isDigit = true := by
  unfold pxMatchNum at h
  dsimp only at h
  split at h
  next hcond =>
    match hv : v with
    | [] => simp at hcond
    | c :: t =>
      refine ⟨c, t, rfl, ?_⟩
      by_contra hd
      rw [List.takeWhile_cons_of_neg (by simpa using hd)] at hcond
      exact hcond.1 rfl
  next => exact absurd h (by simp)

theorem pxMatchNum_none_of_hash {v : Str}
    (h : (stripStr (lowerStr v)).head? = some '#') :
    pxMatchNum v = none := by
  match hn : pxMatchNum v with
  | none => rfl
  | some n =>
    exfalso
    obtain ⟨c, t, hv, hd⟩ := pxMatchNum_head hn
    rw [hv] at h
    rw [show lowerStr (c :: t) = Char.toLower c :: lowerStr t from rfl,
        toLower_digit hd] at h
    rw [stripStr_head (by
      simp [Char.isDigit] at hd
      have h1 : 48 ≤ c.toNat := hd.1
      simp [isPySpace]
      refine ⟨?_, ?_, ?_, ?_, ?_, ?_⟩ <;>
        (intro he; rw [he] at h1; exact absurd h1 (by decide))
      )] at h
    injection h with h
    rw [h] at hd
    exact absurd hd (by decide)

theorem firstColorHit_cons (nv : Str) (tol : ℝ) (kv : Str × Str)
    (m : List (Str × Str)) :
    firstColorHit nv (kv :: m) tol =
      match (if kv.1.head? = some '#' then
          match delta_e nv kv.1 with
          | some d => if d ≤ tol then some (kv.2, d) else none
          | none => none
        else none) with
      | some x => some x
      | none => firstColorHit nv m tol := by
  rw [firstColorHit, List.findSome?_cons]
  match hx : (if kv.1.head? = some '#' then
      match delta_e nv kv.1 with
      | some d => if d ≤ tol then some (kv.2, d) else none
      | none => none
    else none) with
  | some x => rw [hx]
  | none => rw [hx, firstColorHit]

theorem colorScan_eq (nv : Str) (tol : ℝ) (m : List (Str × Str)) :
    (m.findSome? fun kv =>
      if kv.1.head? = some '#' then
        match delta_e nv kv.1 with
        | some d =>
          if d ≤ tol then some (Candidate.nearColor kv.2 (pyRound2 d))
          else none
        | none => none
      else none) =
    (firstColorHit nv m tol).map
      fun vd => Candidate.nearColor vd.1 (pyRound2 vd.2) := by
  induction m with
  | nil => rfl
  | cons kv m ih =>
    rw [firstColorHit_cons, List.findSome?_cons]
    by_cases hh : kv.1.head? = some '#'
    · rw [if_pos hh, if_pos hh]
      match hd : delta_e nv kv.1 with
      | some d =>
        dsimp only
        by_cases hle : d ≤ tol
        · rw [if_pos hle, if_pos hle]
          rfl
        · rw [if_neg hle, if_neg hle]
          exact ih
      | none =>
        dsimp only
        exact ih
    · rw [if_neg hh, if_neg hh]
      exact ih

theorem firstColorHit_none_iff (nv : Str) (m : List (Str × Str)) (tol : ℝ) :
    firstColorHit nv m tol = none ↔
      ∀ kv ∈ m, kv.1.head? = some '#' →
        ∀ d, delta_e nv kv.1 = some d → tol < d := by
  induction m with
  | nil => simp [firstColorHit]
  | cons kv m ih =>
    rw [firstColorHit_cons]
    by_cases hh : kv.1.head? = some '#'
    · rw [if_pos hh]
      match hd : delta_e nv kv.1 with
      | some d =>
        dsimp only
        by_cases hle : d ≤ tol
        · rw [if_pos hle]
          dsimp only
          constructor
          · intro habs; exact absurd habs (by simp)
          · intro hall
            have := hall kv (List.mem_cons_self kv m) hh d hd
            exact absurd hle (not_le.2 this)
        · rw [if_neg hle]
          dsimp only
          rw [ih]
          constructor
          · intro hall kv' hkv' hh' d' hd'
            rcases List.mem_cons.1 hkv' with he | hm
            · subst he
              rw [hd] at hd'
              injection hd' with hd'
              rw [← hd']
              exact lt_of_not_le hle
            · exact hall kv' hm hh' d' hd'
          · intro hall kv' hm hh' d' hd'
            exact hall kv' (List.mem_cons_of_mem _ hm) hh' d' hd'
      | none =>
        dsimp only
        rw [ih]
        constructor
        · intro hall kv' hkv' hh' d' hd'
          rcases List.mem_cons.1 hkv' with he | hm
          · subst he
            rw [hd] at hd'
            exact absurd hd' (by simp)
          · exact hall kv' hm hh' d' hd'
        · intro hall kv' hm hh' d' hd'
          exact hall kv' (List.mem_cons_of_mem _ hm) hh' d' hd'
    · rw [if_neg hh]
      dsimp only
      rw [ih]
      constructor
      · intro hall kv' hkv' hh' d' hd'
        rcases List.mem_cons.1 hkv' with he | hm
        · subst he; exact absurd hh' hh
        · exact hall kv' hm hh' d' hd'
      · intro hall kv' hm hh' d' hd'
        exact hall kv' (List.mem_cons_of_mem _ hm) hh' d' hd'

theorem rgb_to_lab_black : rgb_to_lab (0, 0, 0) = (0, 0, 0) := by
  unfold rgb_to_lab gammaCorrect labTransfer
  norm_num

theorem rgb_to_lab_blue1 :
    rgb_to_lab (0, 0, 1) =
      (651951001 / 32946000000, 1161169694919 / 8350449232000,
       -(9050755290291 / 23915062120000)) := by
  unfold rgb_to_lab gammaCorrect labTransfer
  norm_num

theorem rpow_half_le_three {S : ℝ} (h0 : 0 ≤ S) (h9 : S ≤ 9) :
    S ^ (0.5 : ℝ) ≤ 3 := by
  calc S ^ (0.5 : ℝ) ≤ (9 : ℝ) ^ (0.5 : ℝ) :=
        Real.rpow_le_rpow h0 h9 (by norm_num)
    _ = 3 := by
        rw [show (9 : ℝ) = 3 ^ (2 : ℕ) by norm_num,
            ← Real.rpow_natCast 3 2,
            ← Real.rpow_mul (by norm_num : (0 : ℝ) ≤ 3)]
        norm_num

theorem rpow_half_ge_hundredth {S : ℝ} (h : 1 / 10000 ≤ S) :
    1 / 100 ≤ S ^ (0.5 : ℝ) := by
  calc (1 / 100 : ℝ) = ((1 / 10000 : ℝ)) ^ (0.5 : ℝ) := by
        rw [show (1 / 10000 : ℝ) = (1 / 100 : ℝ) ^ (2 : ℕ) by norm_num,
            ← Real.rpow_natCast (1 / 100 : ℝ) 2,
            ← Real.rpow_mul (by norm_num : (0 : ℝ) ≤ 1 / 100)]
        norm_num
    _ ≤ S ^ (0.5 : ℝ) := Real.rpow_le_rpow (by norm_num) h (by norm_num)

theorem cexDeltaC4_le_three : cexDeltaC4 ≤ 3 := by
  unfold cexDeltaC4 labDist
  rw [rgb_to_lab_black, rgb_to_lab_blue1]
  dsimp only
  apply rpow_half_le_three
  · positivity
  · norm_num

theorem cexDeltaC4_ge_hundredth : 1 / 100 ≤ cexDeltaC4 := by
  unfold cexDeltaC4 labDist
  rw [rgb_to_lab_black, rgb_to_lab_blue1]
  dsimp only
  apply rpow_half_ge_hundredth
  norm_num

theorem pyRound2_ne_zero {x : ℝ} (hx : 1 / 100 ≤ x) : pyRound2 x ≠ 0 := by
  unfold pyRound2
  dsimp only
  have hf : (1 : ℤ) ≤ ⌊x * 100⌋ := by
    apply Int.le_floor.2
    push_cast
    linarith
  split_ifs with h1 h2 h3 <;>
    (intro habs
     rw [div_eq_zero_iff] at habs
     rcases habs with habs | habs
     · rw [Int.cast_eq_zero] at habs
       omega
     · norm_num at habs)

theorem delta_e_000000_000001 :
    delta_e "#000000".toList "#000001".toList = some cexDeltaC4 := by
  unfold delta_e cexDeltaC4
  rw [show hex_to_rgb "#000000".toList = some (0, 0, 0) by decide,
      show hex_to_rgb "#000001".toList = some (0, 0, 1) by decide]
  rfl

theorem delta_e_000000_000 :
    delta_e "#000000".toList "#000".toList = some 0 := by
  unfold delta_e
  rw [show hex_to_rgb "#000000".toList = some (0, 0, 0) by decide,
      show hex_to_rgb "#000".toList = some (0, 0, 0) by decide]
  show some (labDist (rgb_to_lab (0, 0, 0)) (rgb_to_lab (0, 0, 0))) = some 0
  unfold labDist
  norm_num

/-- Claim C4, amended: for a found value whose normalized (lowercased,
stripped) form is `#`-prefixed and has no exact-match lookup, the classifier
scans the `#`-prefixed reference colours in map order computing the LAB
delta-E, and returns `near` at the FIRST reference whose distance is within
the `color_delta_e` tolerance, recording that reference's rounded distance
(not necessarily the minimum one); when no reference is within tolerance —
equivalently, when every computed distance exceeds the tolerance — it
returns no candidate (the value is out of palette). -/
theorem claim4_color_near_scan (value : Str) (m : List (Str × Str))
    (tol : Tolerances)
    (h1 : lookupMap m (stripStr (lowerStr value)) = none)
    (h2 : lookupMap m (upperStr value) = none)
    (h3 : (stripStr (lowerStr value)).head? = some '#') :
    (∀ v d, firstColorHit (stripStr (lowerStr value)) m tol.color_delta_e =
        some (v, d) →
      find_variable_candidate value m tol =
        some (.nearColor v (pyRound2 d))) ∧
    (firstColorHit (stripStr (lowerStr value)) m tol.color_delta_e = none →
      find_variable_candidate value m tol = none) ∧
    (firstColorHit (stripStr (lowerStr value)) m tol.color_delta_e = none ↔
      ∀ kv ∈ m, kv.1.head? = some '#' →
        ∀ d, delta_e (stripStr (lowerStr value)) kv.1 = some d →
          tol.color_delta_e < d) := by
  have hpx := pxMatchNum_none_of_hash h3
  refine ⟨?_, ?_, firstColorHit_none_iff _ _ _⟩
  · intro v d hfh
    unfold find_variable_candidate
    dsimp only
    rw [h1]
    dsimp only
    rw [h2]
    dsimp only
    rw [if_pos h3, colorScan_eq, hfh]
    rfl
  · intro hn
    unfold find_variable_candidate
    dsimp only
    rw [h1]
    dsimp only
    rw [h2]
    dsimp only
    rw [if_pos h3, colorScan_eq, hn]
    rw [hpx]
    rfl

/-- Counterexample to claim C4 as stated: for the found value `#000000`
against the reference map `[#000001 ↦ vA, #000 ↦ vB]` with tolerance 3, the
minimum LAB delta-E over the references is 0 (the key `#000` denotes the
same colour), yet the classifier returns the FIRST within-tolerance
reference `vA` with its nonzero distance recorded — so the claim that the
minimum distance is the one recorded (after computing the distance to every
reference) is false. -/
theorem claim4_counterexample :
    delta_e "#000000".toList "#000".toList = some 0 ∧
    find_variable_candidate "#000000".toList
        [("#000001".toList, "vA".toList), ("#000".toList, "vB".toList)]
        ⟨3, 2⟩ =
      some (.nearColor "vA".toList (pyRound2 cexDeltaC4)) ∧
    pyRound2 cexDeltaC4 ≠ 0 := by
  refine ⟨delta_e_000000_000, ?_, pyRound2_ne_zero cexDeltaC4_ge_hundredth⟩
  unfold find_variable_candidate
  dsimp only
  rw [show stripStr (lowerStr "#000000".toList) = "#000000".toList by decide]
  rw [show lookupMap
      [("#000001".toList, "vA".toList), ("#000".toList, "vB".toList)]
      "#000000".toList = none by decide]
  dsimp only
  rw [show lookupMap
      [("#000001".toList, "vA".toList), ("#000".toList, "vB".toList)]
      (upperStr "#000000".toList) = none by decide]
  dsimp only
  rw [if_pos (show List.head? "#000000".toList = some '#' by decide)]
  rw [List.findSome?_cons]
  rw [if_pos (show List.head? ("#000001".toList, "vA".toList).1 = some '#'
        by decide)]
  rw [delta_e_000000_000001]
  dsimp only
  rw [if_pos cexDeltaC4_le_three]

/-- Witness for the amended C4 at the counterexample's map: the hypotheses
hold by computation and the scan characterization follows by applying the
theorem. -/
theorem claim4_color_near_scan_witness :
    lookupMap [("#000001".toList, "vA".toList), ("#000".toList, "vB".toList)]
      (stripStr (lowerStr "#000000".toList)) = none ∧
    lookupMap [("#000001".toList, "vA".toList), ("#000".toList, "vB".toList)]
      (upperStr "#000000".toList) = none ∧
    (stripStr (lowerStr "#000000".toList)).head? = some '#' ∧
    ((∀ v d, firstColorHit (stripStr (lowerStr "#000000".toList))
        [("#000001".toList, "vA".toList), ("#000".toList, "vB".toList)]
        (⟨3, 2⟩ : Tolerances).color_delta_e = some (v, d) →
      find_variable_candidate "#000000".toList
        [("#000001".toList, "vA".toList), ("#000".toList, "vB".toList)]
        ⟨3, 2⟩ = some (.nearColor v (pyRound2 d))) ∧
    (firstColorHit (stripStr (lowerStr "#000000".toList))
        [("#000001".toList, "vA".toList), ("#000".toList, "vB".toList)]
        (⟨3, 2⟩ : Tolerances).color_delta_e = none →
      find_variable_candidate "#000000".toList
        [("#000001".toList, "vA".toList), ("#000".toList, "vB".toList)]
        ⟨3, 2⟩ = none) ∧
    (firstColorHit (stripStr (lowerStr "#000000".toList))
        [("#000001".toList, "vA".toList), ("#000".toList, "vB".toList)]
        (⟨3, 2⟩ : Tolerances).color_delta_e = none ↔
      ∀ kv ∈ [("#000001".toList, "vA".toList), ("#000".toList, "vB".toList)],
        kv.1.head? = some '#' →
        ∀ d, delta_e (stripStr (lowerStr "#000000".toList)) kv.1 = some d →
          (⟨3, 2⟩ : Tolerances).color_delta_e < d)) :=
  ⟨by decide, by decide, by decide,
   claim4_color_near_scan "#000000".toList
     [("#000001".toList, "vA".toList), ("#000".toList, "vB".toList)]
     ⟨3, 2⟩ (by decide) (by decide) (by decide)⟩

/-! ### Claim C5: idempotence of `_normalize_url`

The development below proves the parse/unparse roundtrip needed to settle
idempotence: character-level facts about `Char.toLower` and the URL character
classes, structural facts about `splitFirst` / `splitChar` / `joinChar` /
`rstripSlash`, idempotence of the component transformations (`lowerStr`,
`fixPath`, `filterQuery`), a characterization of `schemeSplit` and of a
successful `urlsplit`, and finally `urlsplit_urlunsplit`: re-parsing a
reassembled URL recovers its components. -/

theorem char_toNat_ofNat {n : ℕ} (h : n ≤ 122) : (Char.ofNat n).toNat = n := by
  unfold Char.ofNat
  rw [dif_pos (Or.inl (by omega) : Nat.isValidChar n)]
  rfl

theorem toLower_cases (c : Char) :
    c.toLower = c ∨ (65 ≤ c.toNat ∧ c.toNat ≤ 90 ∧ c.toLower.toNat = c.toNat + 32) := by
  unfold Char.toLower
  dsimp only
  by_cases h : c.toNat ≥ 65 ∧ c.toNat ≤ 90
  · right
    rw [if_pos h]
    exact ⟨h.1, h.2, char_toNat_ofNat (by omega)⟩
  · left
    rw [if_neg h]

theorem toLower_eq_low {c d : Char} (hd : d.toNat < 97) (h : c.toLower = d) : c = d := by
  rcases toLower_cases c with h1 | ⟨h1, h2, h3⟩
  · rw [← h1, h]
  · rw [h] at h3
    omega

theorem toLower_fix {c : Char} (h : ¬ (65 ≤ c.toNat ∧ c.toNat ≤ 90)) : c.toLower = c := by
  unfold Char.toLower
  dsimp only
  rw [if_neg h]

theorem toLower_idem (c : Char) : c.toLower.toLower = c.toLower := by
  rcases toLower_cases c with h1 | ⟨h1, h2, h3⟩
  · rw [h1, h1]
  · exact toLower_fix (by omega)

theorem isLower_toNat {c : Char} (h1 : 97 ≤ c.toNat) (h2 : c.toNat ≤ 122) :
    c.isLower = true := by
  simp [Char.isLower]
  exact ⟨h1, h2⟩

theorem toLower_schemeChar {c : Char} (h : schemeChar c = true) :
    schemeChar c.toLower = true := by
  rcases toLower_cases c with h1 | ⟨h1, h2, h3⟩
  · rw [h1]; exact h
  · have : c.toLower.isLower = true := isLower_toNat (by omega) (by omega)
    simp [schemeChar, Char.isAlpha]
    tauto

theorem toLower_isAlpha {c : Char} (h : c.isAlpha = true) : c.toLower.isAlpha = true := by
  rcases toLower_cases c with h1 | ⟨h1, h2, h3⟩
  · rw [h1]
    exact h
  · have : c.toLower.isLower = true := isLower_toNat (by omega) (by omega)
    simp [Char.isAlpha]
    tauto

theorem schemeChar_toNat {c : Char} (h : schemeChar c = true) :
    43 ≤ c.toNat ∧ c.toNat ≤ 122 := by
  simp [schemeChar, Char.isAlpha, Char.isUpper, Char.isLower, Char.isDigit] at h
  rcases h with (⟨h1, h2⟩ | ⟨h1, h2⟩) | ⟨h1, h2⟩ | h | h | h
  · exact ⟨le_trans (by norm_num) (h1 : (65:UInt32).toNat ≤ c.val.toNat),
      le_trans (h2 : c.val.toNat ≤ (90:UInt32).toNat) (by norm_num)⟩
  · exact ⟨le_trans (by norm_num) (h1 : (97:UInt32).toNat ≤ c.val.toNat),
      (h2 : c.val.toNat ≤ (122:UInt32).toNat)⟩
  · exact ⟨le_trans (by norm_num) (h1 : (48:UInt32).toNat ≤ c.val.toNat),
      le_trans (h2 : c.val.toNat ≤ (57:UInt32).toNat) (by norm_num)⟩
  · subst h; exact ⟨by decide, by decide⟩
  · subst h; exact ⟨by decide, by decide⟩
  · subst h; exact ⟨by decide, by decide⟩

theorem schemeChar_not_c0 {c : Char} (h : schemeChar c = true) : isC0OrSpace c = false := by
  have := schemeChar_toNat h
  simp [isC0OrSpace]
  omega

theorem unsafe_c0 {c : Char} (h : isUnsafeUrlChar c = true) : isC0OrSpace c = true := by
  simp [isUnsafeUrlChar] at h
  rcases h with h | h | h <;> subst h <;> decide

theorem toLower_unsafeChar {c : Char} (h : isUnsafeUrlChar c.toLower = true) :
    isUnsafeUrlChar c = true := by
  simp [isUnsafeUrlChar] at h ⊢
  rcases h with h | h | h
  · exact Or.inl (toLower_eq_low (by decide) h)
  · exact Or.inr (Or.inl (toLower_eq_low (by decide) h))
  · exact Or.inr (Or.inr (toLower_eq_low (by decide) h))

theorem toLower_netlocDelim {c : Char} (h : netlocDelim c.toLower = true) :
    netlocDelim c = true := by
  simp [netlocDelim] at h ⊢
  rcases h with h | h | h
  · exact Or.inl (toLower_eq_low (by decide) h)
  · exact Or.inr (Or.inl (toLower_eq_low (by decide) h))
  · exact Or.inr (Or.inr (toLower_eq_low (by decide) h))

theorem mem_lowerStr_low {d : Char} {l : Str} (hd : 90 < d.toNat ∧ d.toNat < 97) :
    d ∈ lowerStr l ↔ d ∈ l := by
  unfold lowerStr
  constructor
  · intro h
    obtain ⟨y, hy, hyd⟩ := List.mem_map.mp h
    rwa [← toLower_eq_low hd.2 hyd]
  · intro h
    have : d.toLower = d := toLower_fix (by omega)
    exact List.mem_map.mpr ⟨d, h, this⟩

theorem badBrackets_lowerStr (l : Str) : badBrackets (lowerStr l) = badBrackets l := by
  simp [badBrackets,
    mem_lowerStr_low (show 90 < ('[' : Char).toNat ∧ ('[' : Char).toNat < 97 by decide),
    mem_lowerStr_low (show 90 < (']' : Char).toNat ∧ (']' : Char).toNat < 97 by decide)]

theorem lowerStr_idem (l : Str) : lowerStr (lowerStr l) = lowerStr l := by
  unfold lowerStr
  rw [List.map_map]
  exact List.map_congr_left fun c _ => toLower_idem c

theorem splitFirst_none_iff {c : Char} {l : Str} : splitFirst c l = none ↔ c ∉ l := by
  induction l with
  | nil => simp [splitFirst]
  | cons x xs ih =>
    rw [splitFirst]
    by_cases hx : x = c
    · subst hx
      simp
    · rw [if_neg hx]
      simp [Option.map_eq_none, ih]
      intro h
      exact fun hc => hx hc.symm

theorem splitFirst_eq_some {c : Char} {l a b : Str} (h : splitFirst c l = some (a, b)) :
    l = a ++ c :: b ∧ c ∉ a := by
  induction l generalizing a b with
  | nil => simp [splitFirst] at h
  | cons x xs ih =>
    rw [splitFirst] at h
    by_cases hx : x = c
    · rw [if_pos hx] at h
      simp only [Option.some.injEq, Prod.mk.injEq] at h
      subst hx
      rw [← h.1, ← h.2]
      exact ⟨rfl, by simp⟩
    · rw [if_neg hx] at h
      match m : splitFirst c xs with
      | none => rw [m] at h; simp at h
      | some p =>
        rw [m] at h
        simp only [Option.map, Option.some.injEq, Prod.mk.injEq] at h
        obtain ⟨h1, h2⟩ := ih (a := p.1) (b := p.2) (by rw [m])
        rw [← h.1, ← h.2]
        constructor
        · rw [List.cons_append, ← h1]
        · simp only [List.mem_cons, not_or]
          exact ⟨fun hc => hx hc.symm, h2⟩

theorem splitFirst_append_left {c : Char} {a : Str} (ha : c ∉ a) (b : Str) :
    splitFirst c (a ++ b) = (splitFirst c b).map fun p => (a ++ p.1, p.2) := by
  induction a with
  | nil =>
    simp only [List.nil_append]
    cases splitFirst c b <;> simp
  | cons x xs ih =>
    simp only [List.mem_cons, not_or] at ha
    rw [List.cons_append, splitFirst, if_neg (fun hh => ha.1 hh.symm), ih ha.2]
    cases splitFirst c b <;> simp

theorem splitFirst_append {c : Char} {a : Str} (ha : c ∉ a) (b : Str) :
    splitFirst c (a ++ c :: b) = some (a, b) := by
  rw [splitFirst_append_left ha, splitFirst, if_pos rfl]
  simp

theorem splitFirst_head {c x : Char} {xs a b : Str}
    (h : splitFirst c (x :: xs) = some (a, b)) : a = [] ∨ a.head? = some x := by
  rw [splitFirst] at h
  by_cases hx : x = c
  · rw [if_pos hx] at h
    simp only [Option.some.injEq, Prod.mk.injEq] at h
    exact Or.inl h.1.symm
  · rw [if_neg hx] at h
    match m : splitFirst c xs with
    | none => rw [m] at h; simp at h
    | some p =>
      rw [m] at h
      simp only [Option.map, Option.some.injEq, Prod.mk.injEq] at h
      rw [← h.1]
      exact Or.inr rfl

theorem splitFirst_of_pre {c : Char} {l a t pre post : Str}
    (hl : l = a ++ t) (hc : c ∈ a) (h : splitFirst c l = some (pre, post)) :
    ∃ rest, splitFirst c a = some (pre, rest) := by
  match m : splitFirst c a with
  | none => exact absurd hc (splitFirst_none_iff.mp m)
  | some q =>
    obtain ⟨hq1, hq2⟩ := splitFirst_eq_some m
    have : l = q.1 ++ c :: (q.2 ++ t) := by
      rw [hl, hq1]
      simp
    rw [this, splitFirst_append hq2] at h
    simp only [Option.some.injEq, Prod.mk.injEq] at h
    exact ⟨q.2, by rw [← h.1]⟩

theorem dropWhile_append_cons {p : Char → Bool} {c : Char} (hc : p c = false) (a b : Str) :
    List.dropWhile p (a ++ c :: b) = List.dropWhile p a ++ c :: b := by
  induction a with
  | nil => simp [List.dropWhile_cons, hc]
  | cons x xs ih =>
    by_cases hx : p x
    · simp [List.dropWhile_cons, hx, ih]
    · simp [List.dropWhile_cons, hx]

theorem dropWhile_head_not {p : Char → Bool} {l xs : Str} {x : Char}
    (h : List.dropWhile p l = x :: xs) : p x = false := by
  induction l with
  | nil => simp [List.dropWhile] at h
  | cons a t ih =>
    rw [List.dropWhile_cons] at h
    by_cases ha : p a
    · rw [if_pos ha] at h
      exact ih h
    · rw [if_neg ha] at h
      simp only [List.cons.injEq] at h
      rw [← h.1]
      exact eq_false_of_ne_true ha

theorem rstripSlash_append {a b : Str} {c : Char} (hc : c ≠ '/') :
    rstripSlash (a ++ c :: b) = a ++ c :: rstripSlash b := by
  unfold rstripSlash
  rw [List.reverse_append, List.reverse_cons, List.append_assoc, List.singleton_append]
  rw [dropWhile_append_cons (by simp [hc]) _ _]
  rw [List.reverse_append, List.reverse_cons]
  simp

theorem rstripSlash_eq_append (p : Str) : ∃ t, p = rstripSlash p ++ t := by
  obtain ⟨s, hs⟩ := List.dropWhile_suffix (l := p.reverse) (fun c => decide (c = '/'))
  refine ⟨s.reverse, ?_⟩
  unfold rstripSlash
  rw [← List.reverse_append, hs, List.reverse_reverse]

theorem rstripSlash_sub {p : Str} : ∀ x ∈ rstripSlash p, x ∈ p := by
  obtain ⟨t, ht⟩ := rstripSlash_eq_append p
  intro x hx
  rw [ht]
  exact List.mem_append_left _ hx

theorem rstripSlash_head {p : Str} (h : rstripSlash p ≠ []) :
    (rstripSlash p).head? = p.head? := by
  obtain ⟨t, ht⟩ := rstripSlash_eq_append p
  match m : rstripSlash p with
  | [] => exact absurd m h
  | x :: xs =>
    rw [m] at ht
    rw [ht]
    rfl

theorem rstripSlash_all {p : Str} (h : rstripSlash p = []) : ∀ x ∈ p, x = '/' := by
  unfold rstripSlash at h
  rw [List.reverse_eq_nil_iff, List.dropWhile_eq_nil_iff] at h
  intro x hx
  simpa using h x (List.mem_reverse.mpr hx)

theorem rstripSlash_getLast {p : Str} : (rstripSlash p).getLast? ≠ some '/' := by
  unfold rstripSlash
  rw [List.getLast?_reverse]
  match m : List.dropWhile (fun c => decide (c = '/')) p.reverse with
  | [] => simp
  | x :: xs =>
    have hx := dropWhile_head_not m
    simp only [decide_eq_false_iff_not] at hx
    simp only [List.head?_cons]
    exact fun hh => hx (Option.some.inj hh)

theorem fixPath_ne_nil (p : Str) : fixPath p ≠ [] := by
  unfold fixPath
  dsimp only
  by_cases h1 : (if p ≠ ['/'] ∧ p.getLast? = some '/' then rstripSlash p else p) = []
  · rw [if_pos h1]
    simp
  · rw [if_neg h1]
    exact h1

theorem fixPath_mem {p : Str} : ∀ x ∈ fixPath p, x ∈ p ∨ x = '/' := by
  unfold fixPath
  dsimp only
  intro x hx
  by_cases h1 : (if p ≠ ['/'] ∧ p.getLast? = some '/' then rstripSlash p else p) = []
  · rw [if_pos h1] at hx
    simp at hx
    exact Or.inr hx
  · rw [if_neg h1] at hx
    by_cases h2 : p ≠ ['/'] ∧ p.getLast? = some '/'
    · rw [if_pos h2] at hx
      exact Or.inl (rstripSlash_sub x hx)
    · rw [if_neg h2] at hx
      exact Or.inl hx

theorem fixPath_getLast (p : Str) : fixPath p = ['/'] ∨ (fixPath p).getLast? ≠ some '/' := by
  unfold fixPath
  dsimp only
  by_cases h1 : (if p ≠ ['/'] ∧ p.getLast? = some '/' then rstripSlash p else p) = []
  · rw [if_pos h1]
    exact Or.inl rfl
  · rw [if_neg h1]
    by_cases h2 : p ≠ ['/'] ∧ p.getLast? = some '/'
    · rw [if_pos h2]
      exact Or.inr rstripSlash_getLast
    · rw [if_neg h2]
      rw [not_and_or, not_not] at h2
      rcases h2 with h2 | h2
      · exact Or.inl h2
      · exact Or.inr h2

theorem fixPath_fix {q : Str} (h : q = ['/'] ∨ (q ≠ [] ∧ q.getLast? ≠ some '/')) :
    fixPath q = q := by
  unfold fixPath
  dsimp only
  rcases h with h | ⟨h1, h2⟩
  · subst h
    rfl
  · rw [if_neg (show ¬ (q ≠ ['/'] ∧ q.getLast? = some '/') from fun hc => h2 hc.2)]
    rw [if_neg h1]

theorem fixPath_idem (p : Str) : fixPath (fixPath p) = fixPath p := by
  rcases fixPath_getLast p with h | h
  · exact fixPath_fix (Or.inl h)
  · exact fixPath_fix (Or.inr ⟨fixPath_ne_nil p, h⟩)

theorem fixPath_head {p : Str} {c : Char} (hc : c ≠ '/') (h : p.head? = some c) :
    (fixPath p).head? = some c := by
  have hnp : p ≠ [] := fun hp => by rw [hp] at h; simp at h
  unfold fixPath
  dsimp only
  by_cases h2 : p ≠ ['/'] ∧ p.getLast? = some '/'
  · rw [if_pos h2]
    have hne : rstripSlash p ≠ [] := by
      intro hz
      have hall := rstripSlash_all hz
      obtain ⟨x, xs, rfl⟩ : ∃ x xs, p = x :: xs := by
        cases p with
        | nil => simp at h
        | cons x xs => exact ⟨x, xs, rfl⟩
      simp only [List.head?_cons, Option.some.injEq] at h
      exact hc (by rw [← h]; exact hall x (by simp))
    rw [if_neg hne, rstripSlash_head hne]
    exact h
  · rw [if_neg h2, if_neg hnp]
    exact h

theorem fixPath_head_slash {p : Str} (h : p = [] ∨ p.head? = some '/') :
    (fixPath p).head? = some '/' := by
  rcases h with h | h
  · rw [h]
    rfl
  · have hnp : p ≠ [] := fun hp => by rw [hp] at h; simp at h
    unfold fixPath
    dsimp only
    by_cases h2 : p ≠ ['/'] ∧ p.getLast? = some '/'
    · rw [if_pos h2]
      by_cases hne : rstripSlash p = []
      · rw [if_pos hne]
        rfl
      · rw [if_neg hne, rstripSlash_head hne]
        exact h
    · rw [if_neg h2, if_neg hnp]
      exact h

theorem fixPath_of_colon {p pre rest : Str} (hm : splitFirst ':' p = some (pre, rest)) :
    ∃ rest2, fixPath p = pre ++ ':' :: rest2 := by
  obtain ⟨h1, h2⟩ := splitFirst_eq_some hm
  unfold fixPath
  dsimp only
  by_cases hc : p ≠ ['/'] ∧ p.getLast? = some '/'
  · rw [if_pos hc, h1, rstripSlash_append (by decide)]
    rw [if_neg (by simp)]
    exact ⟨rstripSlash rest, rfl⟩
  · rw [if_neg hc, if_neg (by rw [h1]; simp)]
    exact ⟨rest, h1⟩

theorem head_of_take2 {l : Str} {a b : Char} (h : l.take 2 = [a, b]) : l.head? = some a := by
  match l with
  | [] => simp at h
  | [x] => simp at h
  | x :: y :: t =>
    simp only [List.take, List.cons.injEq] at h
    rw [h.1]
    rfl

theorem splitChar_none {c : Char} {l : Str} (h : splitFirst c l = none) :
    splitChar c l = [l] := by
  rw [splitChar]
  split
  · rfl
  next p heq => rw [h] at heq; exact absurd heq (by simp)

theorem splitChar_some {c : Char} {l : Str} {p : Str × Str}
    (h : splitFirst c l = some p) : splitChar c l = p.1 :: splitChar c p.2 := by
  rw [splitChar]
  split
  next heq => rw [h] at heq; exact absurd heq (by simp)
  next q heq =>
    rw [h] at heq
    injection heq with h1
    rw [h1]

theorem splitChar_facts {c : Char} (l : Str) :
    splitChar c l ≠ [] ∧ ∀ p ∈ splitChar c l, c ∉ p ∧ ∀ x ∈ p, x ∈ l := by
  suffices H : ∀ n (l : Str), l.length = n →
      (splitChar c l ≠ [] ∧ ∀ p ∈ splitChar c l, c ∉ p ∧ ∀ x ∈ p, x ∈ l) from
    H l.length l rfl
  intro n
  induction n using Nat.strong_induction_on with
  | _ n ih =>
  intro l hn
  match m : splitFirst c l with
  | none =>
    rw [splitChar_none m]
    refine ⟨by simp, ?_⟩
    intro p hp
    simp only [List.mem_singleton] at hp
    subst hp
    exact ⟨splitFirst_none_iff.mp m, fun x hx => hx⟩
  | some q =>
    rw [splitChar_some m]
    obtain ⟨hl, hfree⟩ := splitFirst_eq_some m
    have hlt : q.2.length < n := hn ▸ splitFirst_some_length m
    obtain ⟨_, ihq⟩ := ih q.2.length hlt q.2 rfl
    refine ⟨by simp, ?_⟩
    intro p hp
    rcases List.mem_cons.mp hp with hp | hp
    · subst hp
      refine ⟨hfree, fun x hx => ?_⟩
      rw [hl]
      exact List.mem_append_left _ hx
    · obtain ⟨hf, hs⟩ := ihq p hp
      refine ⟨hf, fun x hx => ?_⟩
      rw [hl]
      exact List.mem_append_right _ (List.mem_cons_of_mem _ (hs x hx))

theorem joinChar_cons2 (c : Char) (a b : Str) (t : List Str) :
    joinChar c (a :: b :: t) = a ++ c :: joinChar c (b :: t) := rfl

theorem joinChar_mem {c : Char} {ps : List Str} :
    ∀ x ∈ joinChar c ps, x = c ∨ ∃ p ∈ ps, x ∈ p := by
  induction ps with
  | nil => simp [joinChar]
  | cons a t ih =>
    match t with
    | [] =>
      intro x hx
      rw [joinChar] at hx
      exact Or.inr ⟨a, by simp, hx⟩
    | b :: t2 =>
      intro x hx
      rw [joinChar_cons2] at hx
      rcases List.mem_append.mp hx with hx | hx
      · exact Or.inr ⟨a, by simp, hx⟩
      · rcases List.mem_cons.mp hx with hx | hx
        · exact Or.inl hx
        · rcases ih x hx with hx | ⟨p, hp, hxp⟩
          · exact Or.inl hx
          · exact Or.inr ⟨p, List.mem_cons_of_mem _ hp, hxp⟩

theorem splitChar_joinChar {c : Char} {ps : List Str} (h0 : ps ≠ [])
    (h : ∀ p ∈ ps, c ∉ p) : splitChar c (joinChar c ps) = ps := by
  induction ps with
  | nil => exact absurd rfl h0
  | cons a t ih =>
    match t with
    | [] =>
      rw [joinChar, splitChar_none (splitFirst_none_iff.mpr (h a (by simp)))]
    | b :: t2 =>
      rw [joinChar_cons2]
      rw [splitChar_some (splitFirst_append (h a (by simp)) _)]
      rw [ih (by simp) (fun p hp => h p (List.mem_cons_of_mem _ hp))]

theorem filterQuery_mem {q : Str} : ∀ x ∈ filterQuery q, x ∈ q ∨ x = '&' := by
  unfold filterQuery
  by_cases hq : q = []
  · rw [if_pos hq]
    simp
  · rw [if_neg hq]
    intro x hx
    rcases joinChar_mem x hx with hx | ⟨p, hp, hxp⟩
    · exact Or.inr hx
    · have hp2 := List.mem_filter.mp hp
      exact Or.inl ((splitChar_facts q).2 p hp2.1 |>.2 x hxp)

theorem filterQuery_idem (q : Str) : filterQuery (filterQuery q) = filterQuery q := by
  by_cases hq : q = []
  · subst hq
    rfl
  · have hfq : filterQuery q =
        joinChar '&' ((splitChar '&' q).filter fun p => ¬ isTracking p) := by
      unfold filterQuery
      rw [if_neg hq]
    by_cases h2 : filterQuery q = []
    · rw [h2]
      rfl
    · have hps : ((splitChar '&' q).filter fun p => ¬ isTracking p) ≠ [] := by
        intro hz
        rw [hfq, hz] at h2
        exact h2 rfl
      have h2' := h2
      rw [hfq] at h2'
      rw [hfq]
      unfold filterQuery
      rw [if_neg h2']
      rw [splitChar_joinChar hps
        (fun p hp => ((splitChar_facts q).2 p (List.mem_filter.mp hp).1).1)]
      rw [List.filter_filter]
      congr 1
      apply List.filter_congr
      intro p hp
      simp

theorem schemeSplit_cases (l : Str) :
    (splitFirst ':' l = none ∧ schemeSplit l = ([], l)) ∨
    (∃ pre post, splitFirst ':' l = some (pre, post) ∧
       ¬ (pre ≠ [] ∧ pre.headI.isAlpha = true ∧ ∀ c ∈ pre, schemeChar c = true) ∧
       schemeSplit l = ([], l)) ∨
    (∃ pre post, splitFirst ':' l = some (pre, post) ∧ pre ≠ [] ∧
       pre.headI.isAlpha = true ∧ (∀ c ∈ pre, schemeChar c = true) ∧
       schemeSplit l = (lowerStr pre, post)) := by
  match m : splitFirst ':' l with
  | none =>
    refine Or.inl ⟨rfl, ?_⟩
    unfold schemeSplit
    rw [m]
  | some p =>
    by_cases hc : p.1 ≠ [] ∧ p.1.headI.isAlpha ∧ p.1.all schemeChar
    · refine Or.inr (Or.inr ⟨p.1, p.2, rfl, hc.1, hc.2.1,
        List.all_eq_true.mp hc.2.2, ?_⟩)
      unfold schemeSplit
      rw [m]
      dsimp only
      rw [if_pos hc]
    · refine Or.inr (Or.inl ⟨p.1, p.2, rfl, ?_, ?_⟩)
      · intro hcc
        exact hc ⟨hcc.1, hcc.2.1, List.all_eq_true.mpr hcc.2.2⟩
      · unfold schemeSplit
        rw [m]
        dsimp only
        rw [if_neg hc]

theorem schemeSplit_append {s b : Str} (hs0 : s ≠ []) (hsa : s.headI.isAlpha = true)
    (hs1 : ∀ c ∈ s, schemeChar c = true) :
    schemeSplit (s ++ ':' :: b) = (lowerStr s, b) := by
  have hns : ':' ∉ s := fun hc => by
    have := hs1 ':' hc
    exact absurd this (by decide)
  unfold schemeSplit
  rw [splitFirst_append hns]
  dsimp only
  rw [if_pos ⟨hs0, hsa, List.all_eq_true.mpr hs1⟩]

theorem schemeSplit_none {l : Str} (h : ':' ∉ l) : schemeSplit l = ([], l) := by
  unfold schemeSplit
  rw [splitFirst_none_iff.mpr h]

theorem schemeSplit_bad {l : Str}
    (h : ∀ pre post, splitFirst ':' l = some (pre, post) →
         ¬ (pre ≠ [] ∧ pre.headI.isAlpha = true ∧ ∀ c ∈ pre, schemeChar c = true)) :
    schemeSplit l = ([], l) := by
  rcases schemeSplit_cases l with ⟨_, hr⟩ | ⟨pre, post, hm, _, hr⟩ |
    ⟨pre, post, hm, h1, h2, h3, _⟩
  · exact hr
  · exact hr
  · exact absurd ⟨h1, h2, h3⟩ (h pre post hm)

theorem takeWhile_append_all {p : Char → Bool} {a : Str} (h : ∀ x ∈ a, p x = true) (b : Str) :
    List.takeWhile p (a ++ b) = a ++ List.takeWhile p b := by
  induction a with
  | nil => simp
  | cons x xs ih =>
    rw [List.cons_append, List.takeWhile_cons, if_pos (h x (by simp))]
    rw [ih fun y hy => h y (List.mem_cons_of_mem _ hy)]
    rfl

theorem dropWhile_append_all {p : Char → Bool} {a : Str} (h : ∀ x ∈ a, p x = true) (b : Str) :
    List.dropWhile p (a ++ b) = List.dropWhile p b := by
  induction a with
  | nil => simp
  | cons x xs ih =>
    rw [List.cons_append, List.dropWhile_cons, if_pos (h x (by simp))]
    exact ih fun y hy => h y (List.mem_cons_of_mem _ hy)

theorem take2_append_ne {path qt : Str} (h0 : path ≠ []) (h2 : path.take 2 ≠ ['/', '/'])
    (hqt : qt = [] ∨ ∃ t, qt = '?' :: t) : (path ++ qt).take 2 ≠ ['/', '/'] := by
  match path with
  | [a] =>
    rcases hqt with h | ⟨t, h⟩ <;> subst h
    · simp
    · intro hh
      simp only [List.cons_append, List.nil_append, List.take, List.cons.injEq] at hh
      exact absurd hh.2.1 (by decide)
  | a :: b :: t0 =>
    intro hh
    simp only [List.cons_append, List.take, List.cons.injEq] at hh
    exact h2 (by simp [List.take, hh.1, hh.2.1])

theorem clean_head {u : Str} {c : Char}
    (h : ((u.dropWhile isC0OrSpace).filter fun c => ¬ isUnsafeUrlChar c).head? = some c) :
    isC0OrSpace c = false := by
  match m : u.dropWhile isC0OrSpace with
  | [] => rw [m] at h; simp at h
  | x :: t =>
    have hx : isC0OrSpace x = false := dropWhile_head_not m
    have hxu : isUnsafeUrlChar x = false := by
      match mu : isUnsafeUrlChar x with
      | false => rfl
      | true => rw [unsafe_c0 mu] at hx; exact absurd hx (by simp)
    rw [m, List.filter_cons, if_pos (by simp [hxu])] at h
    simp only [List.head?_cons, Option.some.injEq] at h
    rw [← h]
    exact hx

theorem clean_id {r : Str} {c : Char} (h0 : r.head? = some c) (hc : isC0OrSpace c = false)
    (h1 : ∀ x ∈ r, isUnsafeUrlChar x = false) :
    ((r.dropWhile isC0OrSpace).filter fun c => ¬ isUnsafeUrlChar c) = r := by
  obtain ⟨x, t, rfl⟩ : ∃ x t, r = x :: t := by
    cases r with
    | nil => simp at h0
    | cons x t => exact ⟨x, t, rfl⟩
  simp only [List.head?_cons, Option.some.injEq] at h0
  subst h0
  rw [List.dropWhile_cons, if_neg (by simp [hc])]
  exact List.filter_eq_self.mpr fun a ha => by simp [h1 a ha]

theorem schemeSplit_head_bad {l : Str} {x : Char} (hx : schemeChar x = false)
    (hl : l.head? = some x) : schemeSplit l = ([], l) := by
  obtain ⟨t, rfl⟩ : ∃ t, l = x :: t := by
    cases l with
    | nil => simp at hl
    | cons a t =>
      simp only [List.head?_cons, Option.some.injEq] at hl
      exact ⟨t, by rw [hl]⟩
  apply schemeSplit_bad
  intro pre post hm
  rcases splitFirst_head hm with h | h
  · exact fun hc => hc.1 h
  · intro hc
    have hmem : x ∈ pre := List.mem_of_mem_head? h
    rw [hc.2.2 x hmem] at hx
    exact absurd hx (by simp)

theorem netloc_phase {netloc rest : Str} (hn : ∀ c ∈ netloc, netlocDelim c = false)
    {x : Char} (hx : netlocDelim x = true) {t : Str} (hr : rest = x :: t) :
    List.takeWhile (fun c => ¬ netlocDelim c) (netloc ++ rest) = netloc ∧
    List.dropWhile (fun c => ¬ netlocDelim c) (netloc ++ rest) = rest := by
  constructor
  · rw [takeWhile_append_all (fun c hc => by simp [hn c hc]), hr]
    rw [List.takeWhile_cons, if_neg (by simp [hx])]
    exact List.append_nil netloc
  · rw [dropWhile_append_all (fun c hc => by simp [hn c hc]), hr]
    rw [List.dropWhile_cons, if_neg (by simp [hx])]

theorem lowerStr_fix {l : Str} (h : ∀ c ∈ l, c.toLower = c) : lowerStr l = l := by
  unfold lowerStr
  rw [List.map_congr_left h]
  exact List.map_id l

theorem tail_phase {path query : Str} (hp1 : '#' ∉ path) (hp2 : '?' ∉ path)
    (hq1 : '#' ∉ query) :
    splitFirst '#' (path ++ if query = [] then [] else '?' :: query) = none ∧
    (splitFirst '?' (path ++ if query = [] then [] else '?' :: query) =
        some (path, query) ∨
     (splitFirst '?' (path ++ if query = [] then [] else '?' :: query) = none ∧
        path ++ (if query = [] then [] else '?' :: query) = path ∧ query = [])) := by
  by_cases hqe : query = []
  · rw [if_pos hqe, List.append_nil]
    exact ⟨splitFirst_none_iff.mpr hp1, Or.inr ⟨splitFirst_none_iff.mpr hp2, rfl, hqe⟩⟩
  · rw [if_neg hqe]
    constructor
    · apply splitFirst_none_iff.mpr
      intro hm
      rcases List.mem_append.mp hm with h | h
      · exact hp1 h
      · rcases List.mem_cons.mp h with h | h
        · exact absurd h (by decide)
        · exact hq1 h
    · exact Or.inl (splitFirst_append hp2 query)

theorem urlsplit_eval {r scheme body netloc rest path query : Str}
    (hclean : ((r.dropWhile isC0OrSpace).filter fun c => ¬ isUnsafeUrlChar c) = r)
    (hss : schemeSplit r = (scheme, body))
    (hnl : (body.take 2 = ['/', '/'] ∧
              (body.drop 2).takeWhile (fun c => ¬ netlocDelim c) = netloc ∧
              (body.drop 2).dropWhile (fun c => ¬ netlocDelim c) = rest) ∨
           (body.take 2 ≠ ['/', '/'] ∧ netloc = [] ∧ rest = body))
    (hbb : badBrackets netloc = false)
    (hfr : splitFirst '#' rest = none)
    (hpq : splitFirst '?' rest = some (path, query) ∨
           (splitFirst '?' rest = none ∧ rest = path ∧ query = [])) :
    urlsplit r = .ok ⟨scheme, netloc, path, query, []⟩ := by
  unfold urlsplit
  dsimp only
  rw [hclean, hss]
  dsimp only
  rcases hnl with ⟨h1, h2, h3⟩ | ⟨h1, h2, h3⟩
  · rw [if_pos h1]
    dsimp only
    rw [h2, h3]
    rw [if_neg (show ¬ (badBrackets netloc = true) from by rw [hbb]; simp)]
    rw [hfr]
    dsimp only
    rcases hpq with hp | ⟨hp, hrp, hqn⟩
    · rw [hp]
    · rw [hp, hrp, hqn]
  · rw [if_neg h1]
    dsimp only
    subst h2
    rw [h3] at hfr hpq
    rw [if_neg (show ¬ (badBrackets ([] : Str) = true) from by decide)]
    rw [hfr]
    dsimp only
    rcases hpq with hp | ⟨hp, hrp, hqn⟩
    · rw [hp]
    · rw [hp, hrp, hqn]

theorem urlsplit_urlunsplit
    {scheme netloc path query : Str}
    (hs : scheme = [] ∨ (scheme ≠ [] ∧ scheme.headI.isAlpha = true ∧
          ∀ c ∈ scheme, schemeChar c = true ∧ c.toLower = c))
    (hn0 : netloc ≠ [])
    (hn : ∀ c ∈ netloc, netlocDelim c = false)
    (hb : badBrackets netloc = false)
    (hph : path.head? = some '/')
    (hp1 : '#' ∉ path) (hp2 : '?' ∉ path)
    (hq1 : '#' ∉ query)
    (h8 : ∀ c, (c ∈ scheme ∨ c ∈ netloc ∨ c ∈ path ∨ c ∈ query) →
      isUnsafeUrlChar c = false) :
    urlsplit (urlunsplit scheme netloc path query []) =
      .ok ⟨scheme, netloc, path, query, []⟩ := by
  obtain ⟨hfr, hpq⟩ := tail_phase hp1 hp2 hq1
  have hqt_mem : ∀ x ∈ (if query = [] then [] else '?' :: query), x = '?' ∨ x ∈ query := by
    intro x hx
    by_cases hqe : query = []
    · rw [if_pos hqe] at hx
      simp at hx
    · rw [if_neg hqe] at hx
      rcases List.mem_cons.mp hx with hx | hx
      · exact Or.inl hx
      · exact Or.inr hx
  have hqt2 : ∀ u2 : Str, (if query ≠ [] then u2 ++ '?' :: query else u2) =
      u2 ++ (if query = [] then [] else '?' :: query) := by
    intro u2
    by_cases hqe : query = []
    · rw [if_pos hqe, if_neg (fun hc => hc hqe), List.append_nil]
    · rw [if_neg hqe, if_pos hqe]
  have hmem_pq : ∀ x ∈ path ++ (if query = [] then [] else '?' :: query),
      isUnsafeUrlChar x = false := by
    intro x hx
    rcases List.mem_append.mp hx with hx | hx
    · exact h8 x (Or.inr (Or.inr (Or.inl hx)))
    · rcases hqt_mem x hx with hx | hx
      · subst hx
        decide
      · exact h8 x (Or.inr (Or.inr (Or.inr hx)))
  obtain ⟨pt, rfl⟩ : ∃ pt, path = '/' :: pt := by
    cases path with
    | nil => simp at hph
    | cons a t =>
      simp only [List.head?_cons, Option.some.injEq] at hph
      exact ⟨t, by rw [hph]⟩
  have hu : urlunsplit scheme netloc ('/' :: pt) query [] =
      (if scheme ≠ [] then scheme ++ ':' :: ('/' :: '/' :: netloc ++ ('/' :: pt))
       else '/' :: '/' :: netloc ++ ('/' :: pt)) ++
        (if query = [] then [] else '?' :: query) := by
    unfold urlunsplit
    dsimp only
    rw [if_pos (Or.inl hn0)]
    rw [if_neg (show ¬ ((('/' :: pt) : Str) ≠ [] ∧
      (('/' :: pt) : Str).take 1 ≠ ['/']) from by simp)]
    rw [hqt2]
    rw [if_neg (show ¬ (([] : Str) ≠ []) from by simp)]
  have hmem_body : ∀ x ∈ '/' :: '/' ::
      (netloc ++ (('/' :: pt) ++ (if query = [] then [] else '?' :: query))),
      isUnsafeUrlChar x = false := by
    intro x hx
    rcases List.mem_cons.mp hx with hx | hx
    · subst hx
      decide
    rcases List.mem_cons.mp hx with hx | hx
    · subst hx
      decide
    rcases List.mem_append.mp hx with hx | hx
    · exact h8 x (Or.inr (Or.inl hx))
    · exact hmem_pq x hx
  obtain ⟨htw, hdw⟩ := netloc_phase hn (show netlocDelim '/' = true from by decide)
    (show (('/' :: pt) : Str) ++ (if query = [] then [] else '?' :: query) =
      '/' :: (pt ++ (if query = [] then [] else '?' :: query)) from rfl)
  rcases hs with rfl | ⟨hs0, hsa, hsl⟩
  · rw [hu, if_neg (show ¬ (([] : Str) ≠ []) from by simp)]
    rw [show ('/' :: '/' :: netloc ++ ('/' :: pt)) ++
        (if query = [] then [] else '?' :: query) =
      '/' :: '/' :: (netloc ++ (('/' :: pt) ++
        (if query = [] then [] else '?' :: query))) from by simp]
    refine urlsplit_eval
      (clean_id rfl (by decide) hmem_body)
      (schemeSplit_head_bad (by decide) rfl)
      ?_ hb hfr hpq
    exact Or.inl ⟨rfl, htw, hdw⟩
  · obtain ⟨c0, s0, rfl⟩ : ∃ c0 s0, scheme = c0 :: s0 := by
      cases scheme with
      | nil => exact absurd rfl hs0
      | cons a t => exact ⟨a, t, rfl⟩
    rw [hu, if_pos hs0]
    rw [show ((c0 :: s0) ++ ':' :: ('/' :: '/' :: netloc ++ ('/' :: pt))) ++
        (if query = [] then [] else '?' :: query) =
      (c0 :: s0) ++ ':' :: ('/' :: '/' :: (netloc ++ (('/' :: pt) ++
        (if query = [] then [] else '?' :: query)))) from by simp]
    have hss : schemeSplit ((c0 :: s0) ++ ':' :: ('/' :: '/' :: (netloc ++
        (('/' :: pt) ++ (if query = [] then [] else '?' :: query))))) =
        (c0 :: s0, '/' :: '/' :: (netloc ++
          (('/' :: pt) ++ (if query = [] then [] else '?' :: query)))) := by
      rw [schemeSplit_append hs0 hsa (fun c hc => (hsl c hc).1)]
      rw [lowerStr_fix (fun c hc => (hsl c hc).2)]
    refine urlsplit_eval ?_ hss (Or.inl ⟨rfl, htw, hdw⟩) hb hfr hpq
    refine clean_id rfl (schemeChar_not_c0 (hsl c0 (by simp)).1) ?_
    intro x hx
    rcases List.mem_append.mp hx with hx | hx
    · exact h8 x (Or.inl hx)
    · rcases List.mem_cons.mp hx with hx | hx
      · subst hx
        decide
      · exact hmem_body x hx

theorem urlsplit_ok_struct {u : Str} {s : SplitResult} (h : urlsplit u = .ok s) :
    ∃ url2 rest,
      schemeSplit ((u.dropWhile isC0OrSpace).filter fun c => ¬ isUnsafeUrlChar c) =
        (s.scheme, url2) ∧
      badBrackets s.netloc = false ∧
      ((url2.take 2 = ['/', '/'] ∧
          s.netloc = (url2.drop 2).takeWhile (fun c => ¬ netlocDelim c) ∧
          rest = (url2.drop 2).dropWhile (fun c => ¬ netlocDelim c)) ∨
        (s.netloc = [] ∧ rest = url2)) ∧
      '#' ∉ s.path ∧ '?' ∉ s.path ∧ '#' ∉ s.query ∧
      (∃ t2, rest = s.path ++ t2) ∧
      (∀ x ∈ s.query, x ∈ rest) := by
  unfold urlsplit at h
  dsimp only at h
  set url1 := (u.dropWhile isC0OrSpace).filter fun c => ¬ isUnsafeUrlChar c with hu1
  set sp := schemeSplit url1 with hsp
  by_cases h2 : (List.take 2 sp.2) = ['/', '/']
  · rw [if_pos h2] at h
    by_cases h3 : badBrackets (List.takeWhile (fun c => ¬ netlocDelim c)
        (List.drop 2 sp.2)) = true
    · rw [if_pos h3] at h
      exact absurd h (by simp)
    · rw [if_neg h3] at h
      match m : splitFirst '#' (List.dropWhile (fun c => ¬ netlocDelim c)
          (List.drop 2 sp.2)) with
      | some p =>
        rw [m] at h
        dsimp only at h
        obtain ⟨hp_eq, hp_free⟩ := splitFirst_eq_some m
        match m2 : splitFirst '?' p.1 with
        | some q =>
          rw [m2] at h
          dsimp only at h
          obtain ⟨hq_eq, hq_free⟩ := splitFirst_eq_some m2
          simp only [Except.ok.injEq] at h
          subst h
          refine ⟨sp.2, List.dropWhile (fun c => ¬ netlocDelim c) (List.drop 2 sp.2),
            rfl, by simpa using h3, Or.inl ⟨h2, rfl, rfl⟩, ?_, hq_free, ?_, ?_, ?_⟩
          · intro hc
            exact hp_free (hq_eq ▸ List.mem_append_left _ hc)
          · intro hc
            exact hp_free (hq_eq ▸ List.mem_append_right _ (List.mem_cons_of_mem _ hc))
          · refine ⟨'?' :: q.2 ++ '#' :: p.2, ?_⟩
            rw [hp_eq, hq_eq]
            simp
          · intro x hx
            rw [hp_eq, hq_eq]
            simp [hx]
        | none =>
          rw [m2] at h
          dsimp only at h
          simp only [Except.ok.injEq] at h
          subst h
          refine ⟨sp.2, List.dropWhile (fun c => ¬ netlocDelim c) (List.drop 2 sp.2),
            rfl, by simpa using h3, Or.inl ⟨h2, rfl, rfl⟩, hp_free,
            splitFirst_none_iff.mp m2, by simp, ⟨'#' :: p.2, hp_eq⟩, by simp⟩
      | none =>
        rw [m] at h
        dsimp only at h
        have hm_free := splitFirst_none_iff.mp m
        match m2 : splitFirst '?' (List.dropWhile (fun c => ¬ netlocDelim c)
            (List.drop 2 sp.2)) with
        | some q =>
          rw [m2] at h
          dsimp only at h
          obtain ⟨hq_eq, hq_free⟩ := splitFirst_eq_some m2
          simp only [Except.ok.injEq] at h
          subst h
          refine ⟨sp.2, List.dropWhile (fun c => ¬ netlocDelim c) (List.drop 2 sp.2),
            rfl, by simpa using h3, Or.inl ⟨h2, rfl, rfl⟩, ?_, hq_free, ?_,
            ⟨'?' :: q.2, hq_eq⟩, ?_⟩
          · intro hc
            exact hm_free (hq_eq ▸ List.mem_append_left _ hc)
          · intro hc
            exact hm_free (hq_eq ▸ List.mem_append_right _ (List.mem_cons_of_mem _ hc))
          · intro x hx
            rw [hq_eq]
            simp [hx]
        | none =>
          rw [m2] at h
          dsimp only at h
          simp only [Except.ok.injEq] at h
          subst h
          exact ⟨sp.2, List.dropWhile (fun c => ¬ netlocDelim c) (List.drop 2 sp.2),
            rfl, by simpa using h3, Or.inl ⟨h2, rfl, rfl⟩, hm_free,
            splitFirst_none_iff.mp m2, by simp, ⟨[], by simp⟩, by simp⟩
  · rw [if_neg h2] at h
    by_cases h3 : badBrackets ([] : Str) = true
    · rw [if_pos h3] at h
      exact absurd h (by simp)
    · rw [if_neg h3] at h
      match m : splitFirst '#' sp.2 with
      | some p =>
        rw [m] at h
        dsimp only at h
        obtain ⟨hp_eq, hp_free⟩ := splitFirst_eq_some m
        match m2 : splitFirst '?' p.1 with
        | some q =>
          rw [m2] at h
          dsimp only at h
          obtain ⟨hq_eq, hq_free⟩ := splitFirst_eq_some m2
          simp only [Except.ok.injEq] at h
          subst h
          refine ⟨sp.2, sp.2, rfl, by simpa using h3, Or.inr ⟨rfl, rfl⟩,
            ?_, hq_free, ?_, ?_, ?_⟩
          · intro hc
            exact hp_free (hq_eq ▸ List.mem_append_left _ hc)
          · intro hc
            exact hp_free (hq_eq ▸ List.mem_append_right _ (List.mem_cons_of_mem _ hc))
          · refine ⟨'?' :: q.2 ++ '#' :: p.2, ?_⟩
            rw [hp_eq, hq_eq]
            simp
          · intro x hx
            rw [hp_eq, hq_eq]
            simp [hx]
        | none =>
          rw [m2] at h
          dsimp only at h
          simp only [Except.ok.injEq] at h
          subst h
          refine ⟨sp.2, sp.2, rfl, by simpa using h3, Or.inr ⟨rfl, rfl⟩, hp_free,
            splitFirst_none_iff.mp m2, by simp, ⟨'#' :: p.2, hp_eq⟩, by simp⟩
      | none =>
        rw [m] at h
        dsimp only at h
        have hm_free := splitFirst_none_iff.mp m
        match m2 : splitFirst '?' sp.2 with
        | some q =>
          rw [m2] at h
          dsimp only at h
          obtain ⟨hq_eq, hq_free⟩ := splitFirst_eq_some m2
          simp only [Except.ok.injEq] at h
          subst h
          refine ⟨sp.2, sp.2, rfl, by simpa using h3, Or.inr ⟨rfl, rfl⟩, ?_, hq_free, ?_,
            ⟨'?' :: q.2, hq_eq⟩, ?_⟩
          · intro hc
            exact hm_free (hq_eq ▸ List.mem_append_left _ hc)
          · intro hc
            exact hm_free (hq_eq ▸ List.mem_append_right _ (List.mem_cons_of_mem _ hc))
          · intro x hx
            rw [hq_eq]
            simp [hx]
        | none =>
          rw [m2] at h
          dsimp only at h
          simp only [Except.ok.injEq] at h
          subst h
          exact ⟨sp.2, sp.2, rfl, by simpa using h3, Or.inr ⟨rfl, rfl⟩, hm_free,
            splitFirst_none_iff.mp m2, by simp, ⟨[], by simp⟩, by simp⟩

theorem head_append {a b : Str} {c : Char} (h : a.head? = some c) :
    (a ++ b).head? = some c := by
  cases a with
  | nil => simp at h
  | cons x t => simpa using h

theorem toLower_unsafe_false {c : Char} (h : isUnsafeUrlChar c = false) :
    isUnsafeUrlChar c.toLower = false := by
  match mb : isUnsafeUrlChar c.toLower with
  | false => rfl
  | true =>
    rw [toLower_unsafeChar mb] at h
    exact absurd h (by simp)

theorem toLower_delim_false {c : Char} (h : netlocDelim c = false) :
    netlocDelim c.toLower = false := by
  match mb : netlocDelim c.toLower with
  | false => rfl
  | true =>
    rw [toLower_netlocDelim mb] at h
    exact absurd h (by simp)

theorem schemeChar_unsafe_false {c : Char} (h : schemeChar c = true) :
    isUnsafeUrlChar c = false := by
  match mb : isUnsafeUrlChar c with
  | false => rfl
  | true =>
    have h1 := unsafe_c0 mb
    rw [schemeChar_not_c0 h] at h1
    exact absurd h1 (by simp)

theorem clean_sub {u : Str} :
    ∀ x ∈ ((u.dropWhile isC0OrSpace).filter fun c => ¬ isUnsafeUrlChar c), x ∈ u := by
  intro x hx
  exact List.Sublist.mem (List.mem_filter.mp hx).1 (List.dropWhile_sublist isC0OrSpace)

theorem clean_unsafeChars {u : Str} :
    ∀ x ∈ ((u.dropWhile isC0OrSpace).filter fun c => ¬ isUnsafeUrlChar c),
      isUnsafeUrlChar x = false := by
  intro x hx
  have := (List.mem_filter.mp hx).2
  simpa using this

/-- Claim C5 (amended): on every input without a `;` whose parse carries a
nonempty network location (a host), URL normalization is idempotent: when
`_normalize_url u` returns `r`, `_normalize_url r` returns `r` unchanged.
(Idempotence fails both on inputs with `;` and on host-less inputs whose
path starts with `//`; see the counterexample.) -/
theorem claim5_normalize_idempotent (u r : Str) (hu : ';' ∉ u) (p : ParseResult)
    (hp : urlparse u = .ok p) (hnet : p.netloc ≠ [])
    (h : normalize_url u = .ok r) : normalize_url r = .ok r := by
  unfold normalize_url at h
  rw [hp] at h
  simp only [Except.map, Except.ok.injEq] at h
  unfold urlparse at hp
  match hsp : urlsplit u with
  | .error e =>
    rw [hsp] at hp
    exact absurd hp (by simp [Except.map])
  | .ok s =>
    rw [hsp] at hp
    simp only [Except.map, Except.ok.injEq] at hp
    obtain ⟨url2, rest, hss, hbb, hnl, hPh, hPq, hQh, ⟨t2, hrest⟩, hQsub⟩ :=
      urlsplit_ok_struct hsp
    set url1 := (u.dropWhile isC0OrSpace).filter fun c => ¬ isUnsafeUrlChar c with hu1
    have hsub_u1 : ∀ x ∈ url1, x ∈ u := by
      rw [hu1]
      exact clean_sub
    have huns_u1 : ∀ x ∈ url1, isUnsafeUrlChar x = false := by
      rw [hu1]
      exact clean_unsafeChars
    have hsub_r2 : ∀ x ∈ rest, x ∈ url2 := by
      rcases hnl with ⟨-, -, hrw⟩ | ⟨-, hrw⟩
      · intro x hx
        rw [hrw] at hx
        exact List.Sublist.mem (List.Sublist.mem hx (List.dropWhile_sublist _))
          (List.drop_sublist 2 url2)
      · intro x hx
        rw [hrw] at hx
        exact hx
    have hschemefacts : s.scheme = [] ∨ (s.scheme ≠ [] ∧
        s.scheme.headI.isAlpha = true ∧
        ∀ c ∈ s.scheme, schemeChar c = true ∧ c.toLower = c) := by
      rcases schemeSplit_cases url1 with ⟨hm, he⟩ | ⟨pre, post, hm, hbad, he⟩ |
        ⟨pre, post, hm, hne, hha, hall, he⟩
      · rw [he] at hss
        exact Or.inl (congrArg Prod.fst hss).symm
      · rw [he] at hss
        exact Or.inl (congrArg Prod.fst hss).symm
      · rw [he] at hss
        right
        have h1 : lowerStr pre = s.scheme := congrArg Prod.fst hss
        obtain ⟨c0, t0, rfl⟩ : ∃ c0 t0, pre = c0 :: t0 := by
          cases pre with
          | nil => exact absurd rfl hne
          | cons a t => exact ⟨a, t, rfl⟩
        refine ⟨?_, ?_, ?_⟩
        · rw [← h1]
          simp [lowerStr]
        · rw [← h1]
          exact toLower_isAlpha hha
        · intro c hc
          rw [← h1] at hc
          obtain ⟨y, hy, hyc⟩ := List.mem_map.mp hc
          subst hyc
          exact ⟨toLower_schemeChar (hall y hy), toLower_idem y⟩
    have hsub_2u : ∀ x ∈ url2, x ∈ url1 := by
      rcases schemeSplit_cases url1 with ⟨-, he⟩ | ⟨pre, post, hm, -, he⟩ |
        ⟨pre, post, hm, -, -, -, he⟩
      · rw [he] at hss
        have h2 : url1 = url2 := congrArg Prod.snd hss
        intro x hx
        rw [h2]
        exact hx
      · rw [he] at hss
        have h2 : url1 = url2 := congrArg Prod.snd hss
        intro x hx
        rw [h2]
        exact hx
      · rw [he] at hss
        have h2 : post = url2 := congrArg Prod.snd hss
        obtain ⟨he2, -⟩ := splitFirst_eq_some hm
        intro x hx
        rw [he2]
        rw [← h2] at hx
        exact List.mem_append_right _ (List.mem_cons_of_mem _ hx)
    have hsub_pr : ∀ x ∈ s.path, x ∈ rest := by
      intro x hx
      rw [hrest]
      exact List.mem_append_left _ hx
    have hsub_p1 : ∀ x ∈ s.path, x ∈ url1 :=
      fun x hx => hsub_2u x (hsub_r2 x (hsub_pr x hx))
    have hsub_q1 : ∀ x ∈ s.query, x ∈ url1 :=
      fun x hx => hsub_2u x (hsub_r2 x (hQsub x hx))
    have hsemi : ';' ∉ s.path := fun hc => hu (hsub_u1 ';' (hsub_p1 ';' hc))
    rw [if_neg (fun hc => hsemi hc.2)] at hp
    subst hp
    have hnet2 : s.netloc ≠ [] := hnet
    have hA : url2.take 2 = ['/', '/'] ∧
        s.netloc = (url2.drop 2).takeWhile (fun c => ¬ netlocDelim c) ∧
        rest = (url2.drop 2).dropWhile (fun c => ¬ netlocDelim c) := by
      rcases hnl with hA | ⟨hN, -⟩
      · exact hA
      · exact absurd hN hnet2
    have hNd : ∀ c ∈ s.netloc, netlocDelim c = false := by
      intro c hc
      rw [hA.2.1] at hc
      have := List.mem_takeWhile_imp hc
      simpa using this
    have hsub_n1 : ∀ x ∈ s.netloc, x ∈ url1 := by
      intro x hx
      rw [hA.2.1] at hx
      exact hsub_2u x (List.Sublist.mem (List.Sublist.mem hx
        (List.takeWhile_sublist _)) (List.drop_sublist 2 url2))
    have hA_head : (fixPath s.path).head? = some '/' := by
      obtain ⟨-, -, hrw⟩ := hA
      by_cases hpe : s.path = []
      · exact fixPath_head_slash (Or.inl hpe)
      · obtain ⟨x, xs, hpx⟩ : ∃ x xs, s.path = x :: xs := by
          match hc : s.path with
          | [] => exact absurd hc hpe
          | a :: t => exact ⟨a, t, rfl⟩
        have hrx : rest.head? = some x := by
          rw [hrest, hpx]
          rfl
        obtain ⟨rt, hrt⟩ : ∃ rt, rest = x :: rt := by
          match hc : rest with
          | [] => simp at hrx
          | a :: t =>
            simp only [List.head?_cons, Option.some.injEq] at hrx
            exact ⟨t, by rw [hrx]⟩
        have hdw2 : List.dropWhile (fun c => ¬ netlocDelim c) (url2.drop 2) =
            x :: rt := by
          rw [← hrw]
          exact hrt
        have hpred := dropWhile_head_not hdw2
        have hxd : netlocDelim x = true := by simpa using hpred
        have hxm : x ∈ s.path := by
          rw [hpx]
          simp
        simp only [netlocDelim, decide_eq_true_eq] at hxd
        rcases hxd with hxd | hxd | hxd
        · subst hxd
          exact fixPath_head_slash (Or.inr (by rw [hpx]; rfl))
        · subst hxd
          exact absurd hxm hPq
        · subst hxd
          exact absurd hxm hPh
    unfold normParts urlunparse at h
    dsimp only at h
    rw [if_neg (show ¬ (([] : Str) ≠ []) from by simp)] at h
    subst h
    have hsemifix : ';' ∉ fixPath s.path := by
      intro hc
      rcases fixPath_mem _ hc with hc | hc
      · exact hsemi hc
      · exact absurd hc (by decide)
    have hn0' : lowerStr s.netloc ≠ [] := by
      intro hz
      simp only [lowerStr, List.map_eq_nil_iff] at hz
      exact hnet2 hz
    have hn' : ∀ c ∈ lowerStr s.netloc, netlocDelim c = false := by
      intro c hc
      obtain ⟨y, hy, hyc⟩ := List.mem_map.mp hc
      subst hyc
      exact toLower_delim_false (hNd y hy)
    have hb' : badBrackets (lowerStr s.netloc) = false := by
      rw [badBrackets_lowerStr]
      exact hbb
    have hp1' : '#' ∉ fixPath s.path := by
      intro hc
      rcases fixPath_mem _ hc with hc | hc
      · exact hPh hc
      · exact absurd hc (by decide)
    have hp2' : '?' ∉ fixPath s.path := by
      intro hc
      rcases fixPath_mem _ hc with hc | hc
      · exact hPq hc
      · exact absurd hc (by decide)
    have hq1' : '#' ∉ filterQuery s.query := by
      intro hc
      rcases filterQuery_mem _ hc with hc | hc
      · exact hQh hc
      · exact absurd hc (by decide)
    have h8' : ∀ c, (c ∈ s.scheme ∨ c ∈ lowerStr s.netloc ∨ c ∈ fixPath s.path ∨
        c ∈ filterQuery s.query) → isUnsafeUrlChar c = false := by
      intro c hc
      rcases hc with hc | hc | hc | hc
      · rcases hschemefacts with h1 | ⟨-, -, h2⟩
        · rw [h1] at hc
          simp at hc
        · exact schemeChar_unsafe_false (h2 c hc).1
      · obtain ⟨y, hy, hyc⟩ := List.mem_map.mp hc
        subst hyc
        exact toLower_unsafe_false (huns_u1 y (hsub_n1 y hy))
      · rcases fixPath_mem _ hc with hc | hc
        · exact huns_u1 c (hsub_p1 c hc)
        · subst hc
          decide
      · rcases filterQuery_mem _ hc with hc | hc
        · exact huns_u1 c (hsub_q1 c hc)
        · subst hc
          decide
    have hround := urlsplit_urlunsplit hschemefacts hn0' hn' hb' hA_head hp1' hp2'
      hq1' h8'
    unfold normalize_url urlparse
    rw [hround]
    simp only [Except.map]
    rw [if_neg (show ¬ ((SplitResult.mk s.scheme (lowerStr s.netloc) (fixPath s.path)
        (filterQuery s.query) []).scheme ∈ usesParams ∧
        ';' ∈ (SplitResult.mk s.scheme (lowerStr s.netloc) (fixPath s.path)
        (filterQuery s.query) []).path) from fun hc => hsemifix hc.2)]
    unfold normParts urlunparse
    dsimp only
    rw [if_neg (show ¬ (([] : Str) ≠ []) from by simp)]
    rw [lowerStr_idem, fixPath_idem, filterQuery_idem]

/-- Counterexample to claim C5 as stated: `_normalize_url` is not idempotent
on all URLs, in two independent ways.  (1) For `http://x/a;/` the trailing
slash puts the `;` before the last `/`-segment boundary, so `_splitparams`
finds no params and the `;` survives into the path, which `rstrip("/")`
then exposes at the end: the result is `http://x/a;`, and normalizing that
drops the now-empty `;params` component, giving `http://x/a`.  (2) For the
`;`-free `http:////a` the parse yields an empty netloc and the path `//a`,
and `urlunsplit` (CPython 3.11.4+) emits `http://a` without a `//` marker
for the path; re-normalizing reads `a` as the netloc and returns
`http://a/`. -/
theorem claim5_counterexample :
    (normalize_url "http://x/a;/".toList = .ok "http://x/a;".toList ∧
     normalize_url "http://x/a;".toList = .ok "http://x/a".toList ∧
     "http://x/a;".toList ≠ "http://x/a".toList) ∧
    (';' ∉ "http:////a".toList ∧
     normalize_url "http:////a".toList = .ok "http://a".toList ∧
     normalize_url "http://a".toList = .ok "http://a/".toList ∧
     "http://a".toList ≠ "http://a/".toList) :=
  ⟨⟨rfl, rfl, by decide⟩, by decide, rfl, rfl, by decide⟩

/-- Witness for the amended claim C5 at a concrete input with a host:
normalizing `https://EX.com/a/` yields `https://ex.com/a`, which normalizes
to itself. -/
theorem claim5_normalize_idempotent_witness :
    ';' ∉ "https://EX.com/a/".toList ∧
    urlparse "https://EX.com/a/".toList =
      .ok ⟨"https".toList, "EX.com".toList, "/a/".toList, [], [], []⟩ ∧
    normalize_url "https://EX.com/a/".toList = .ok "https://ex.com/a".toList ∧
    normalize_url "https://ex.com/a".toList = .ok "https://ex.com/a".toList :=
  ⟨by decide, rfl, rfl,
    claim5_normalize_idempotent "https://EX.com/a/".toList "https://ex.com/a".toList
      (by decide) ⟨"https".toList, "EX.com".toList, "/a/".toList, [], [], []⟩
      rfl (by decide) rfl⟩

end SiteAudit
